import Mathlib

/-!
# ParameterPermutator: a brute-force parameter sweep

A shallow embedding of `src/parameter_permutator.hpp` (the class template
`ParameterPermutator<RetType, Args...>`) together with the properties its
specification states about it.

Modelling conventions.

* `std::variant<bool, unsigned int, int, float, double>` is the inductive type
  `Variant`; the payload of the two floating point alternatives is an exact
  rational number, the payload of the two integer alternatives an unbounded
  number.
* The template parameter pack `Args...` is a list of `Kind`s, `RetType` is a
  linearly ordered type `R`, and `std::numeric_limits<RetType>::lowest()` is
  the field `lowest`.
* The scoring function is a function of the combination it is called with: it
  is deterministic, and `_call` hands it the combination only after every
  `std::get<Args>` has found the alternative it asks for.
* `size_t` is a natural number reduced modulo `2 ^ 64`.
* A member function that mutates the object returns the new object.  A C++
  exception does not undo the mutations made before it was thrown, so `run`
  returns the state reached together with the exception, if any.
* What `run` does to the outside world is recorded as a list of `Event`s: a
  call of the scoring function with its arguments, or a call of the progress
  callback with the values the accessors return at that moment.
-/

/-! ## Values -/

/-- The alternatives of `std::variant<bool, unsigned int, int, float, double>`. -/
inductive Kind where
  | bool
  | uint
  | int
  | float
  | double
  deriving DecidableEq, Repr

/-- A value of `std::variant<bool, unsigned int, int, float, double>`. -/
inductive Variant where
  | bool (b : Bool)
  | uint (n : Nat)
  | int (i : Int)
  | float (q : ℚ)
  | double (q : ℚ)
  deriving DecidableEq, Repr

/-- The active alternative of a variant (`std::variant::index`). -/
def Variant.kind : Variant → Kind
  | .bool _ => .bool
  | .uint _ => .uint
  | .int _ => .int
  | .float _ => .float
  | .double _ => .double

abbrev ParameterPack := List Variant
abbrev ParameterRange := List Variant

/-- The number of values of `size_t`, `2 ^ 64`. -/
def SIZE_MOD : Nat := 18446744073709551616

/-- The exceptions the class can raise.  `out_of_range` stands for an unchecked
`operator[]` outside the vector (undefined behaviour in C++), `depth_exhausted`
for a recursion deeper than the model's depth bound. -/
inductive Exn where
  | runtime_error (msg : String)
  | bad_variant_access
  | bad_function_call
  | out_of_range
  | depth_exhausted
  deriving DecidableEq, Repr

/-! ## The engine -/

/-- The class `ParameterPermutator<RetType, Args...>`: the template arguments
and the data members.  `_progressCallback` tells whether the `std::function`
holds a target. -/
structure ParameterPermutator (R : Type) where
  Args : List Kind
  lowest : R
  _userFunction : ParameterPack → R
  _parameterRanges : List ParameterRange
  _parameterNames : List String
  _progressCallback : Bool
  _prog : Nat
  _bestScore : R
  _bestParameters : ParameterPack

/-- What the public accessors show of the engine at one moment. -/
structure Snapshot (R : Type) where
  getCurrentIteration : Nat
  getBestScore : R
  getBestParameters : ParameterPack

/-- An effect of `run` on the outside world. -/
inductive Event (R : Type) where
  | call (pp : ParameterPack)
  | progress (s : Snapshot R)

section Model

variable {R : Type}

/-- The number `sizeof...(Args)`. -/
def ParameterPermutator.arity (e : ParameterPermutator R) : Nat := e.Args.length

/-- The first constructor: scoring function, ranges and optional names. -/
def ParameterPermutator.new (Args : List Kind) (lowest : R)
    (userFunction : ParameterPack → R) (parameterRange : List ParameterRange)
    (parameterNames : List String) : Except Exn (ParameterPermutator R) :=
  if Args.length ≠ parameterRange.length then
    .error (.runtime_error
      ("Number of arguments does not match the size of the vector (nArgs="
        ++ toString Args.length ++ ", ranges.size()="
        ++ toString parameterRange.length ++ ")"))
  else if parameterNames.length ≠ 0 ∧ parameterNames.length ≠ Args.length then
    .error (.runtime_error "Number of parameter names does not match number of arguments")
  else
    .ok { Args := Args, lowest := lowest, _userFunction := userFunction,
          _parameterRanges := parameterRange, _parameterNames := parameterNames,
          _progressCallback := false, _prog := 0, _bestScore := lowest,
          _bestParameters := [] }

/-- The second constructor: scoring function and a list of (name, range) pairs. -/
def ParameterPermutator.newNamed (Args : List Kind) (lowest : R)
    (userFunction : ParameterPack → R) (nameRangeMap : List (String × ParameterRange)) :
    Except Exn (ParameterPermutator R) :=
  if Args.length ≠ nameRangeMap.length then
    .error (.runtime_error
      ("Number of arguments does not match the size of the vector (nArgs="
        ++ toString Args.length ++ ", vector.size()="
        ++ toString nameRangeMap.length ++ ")"))
  else
    .ok { Args := Args, lowest := lowest, _userFunction := userFunction,
          _parameterRanges := nameRangeMap.map Prod.snd,
          _parameterNames := nameRangeMap.map Prod.fst,
          _progressCallback := false, _prog := 0, _bestScore := lowest,
          _bestParameters := [] }

/-- The loop of `getNumberOfTotalPermutations`: `N *= v.size()` in `size_t`. -/
def ParameterPermutator.getNumberOfTotalPermutations (e : ParameterPermutator R) : Nat :=
  e._parameterRanges.foldl (fun N v => (N * v.length) % SIZE_MOD) 1

def ParameterPermutator.getCurrentIteration (e : ParameterPermutator R) : Nat := e._prog

def ParameterPermutator.getBestParameters (e : ParameterPermutator R) : ParameterPack :=
  e._bestParameters

def ParameterPermutator.getBestScore (e : ParameterPermutator R) : R := e._bestScore

/-- After `setProgressCallback` the `std::function` holds a target. -/
def ParameterPermutator.setProgressCallback (e : ParameterPermutator R) : ParameterPermutator R :=
  { e with _progressCallback := true }

/-- The accessor values an observer reads through the pointer it is given. -/
def ParameterPermutator.snapshot (e : ParameterPermutator R) : Snapshot R :=
  { getCurrentIteration := e.getCurrentIteration,
    getBestScore := e.getBestScore,
    getBestParameters := e.getBestParameters }

/-- The loop of `_makeParameterPack`: `ret.push_back(_parameterRanges[i][indicies[i]])`
for `i` in the given list of positions. -/
def packLoop (ranges : List ParameterRange) (indicies : List Nat) :
    List Nat → Except Exn ParameterPack
  | [] => .ok []
  | i :: is =>
    match ranges[i]?, indicies[i]? with
    | some range, some idx =>
      match range[idx]? with
      | some v =>
        match packLoop ranges indicies is with
        | .ok rest => .ok (v :: rest)
        | .error x => .error x
      | none => .error .out_of_range
    | _, _ => .error .out_of_range

/-- The member `_makeParameterPack`. -/
def ParameterPermutator._makeParameterPack (e : ParameterPermutator R) (indicies : List Nat) :
    Except Exn ParameterPack :=
  if indicies.length ≠ e.arity then
    .error (.runtime_error
      "_makeParameterPack | Number of indicies does not match number of arguments")
  else
    packLoop e._parameterRanges indicies (List.range e.arity)

/-- The pack expansion `std::get<Args>(pp[Is])...`: every element must hold the
alternative the scoring function declares at its position. -/
def argsMatch : List Kind → ParameterPack → Bool
  | [], _ => true
  | _ :: _, [] => false
  | k :: ks, v :: vs => decide (v.kind = k) && argsMatch ks vs

/-- The member `_call`: the arguments are extracted first, then the scoring
function is called. -/
def ParameterPermutator._call (e : ParameterPermutator R) (pp : ParameterPack) :
    Except Exn R :=
  if argsMatch e.Args pp then .ok (e._userFunction pp) else .error .bad_variant_access

/-- The state `_runRecursive` works on: the object, the vector it receives by
reference, and the effects so far. -/
structure RunState (R : Type) where
  self : ParameterPermutator R
  indicies : List Nat
  trace : List (Event R)

/-- A `for` loop over the given values of the loop variable that an exception
leaves at once. -/
def forLoop {α σ : Type} (body : α → σ → σ × Option Exn) :
    List α → σ → σ × Option Exn
  | [], s => (s, none)
  | curi :: rest, s =>
    match body curi s with
    | (s1, none) => forLoop body rest s1
    | (s1, some x) => (s1, some x)

/-- The base case of `_runRecursive`: evaluate one combination. -/
def ParameterPermutator.evaluate [LinearOrder R] (s : RunState R) :
    RunState R × Option Exn :=
  match s.self._makeParameterPack s.indicies with
  | .error x => (s, some x)
  | .ok pp =>
    match s.self._call pp with
    | .error x => (s, some x)
    | .ok score =>
      let e1 : ParameterPermutator R :=
        if score > s.self._bestScore then
          { s.self with _bestScore := score, _bestParameters := pp }
        else s.self
      let e2 : ParameterPermutator R := { e1 with _prog := (e1._prog + 1) % SIZE_MOD }
      let s2 : RunState R := { s with self := e2, trace := s.trace ++ [Event.call pp] }
      if e2._progressCallback then
        ({ s2 with trace := s2.trace ++ [Event.progress e2.snapshot] }, none)
      else
        (s2, some .bad_function_call)

/-- The member `_runRecursive`.  The first argument bounds the recursion depth;
`run` passes the arity, which is the depth the recursion reaches. -/
def ParameterPermutator._runRecursive [LinearOrder R] :
    Nat → Nat → RunState R → RunState R × Option Exn
  | depth, i, s =>
    if i = s.self.arity then ParameterPermutator.evaluate s
    else
      match depth with
      | 0 => (s, some .depth_exhausted)
      | depth + 1 =>
        match s.self._parameterRanges[i]? with
        | none => (s, some .out_of_range)
        | some range =>
          forLoop
            (fun curi s1 =>
              ParameterPermutator._runRecursive depth (i + 1)
                { s1 with indicies := s1.indicies.set i curi })
            (List.range range.length) s

/-- The result of `run`: the object afterwards, the effects, and the exception
that left `run`, if any. -/
structure RunResult (R : Type) where
  self : ParameterPermutator R
  trace : List (Event R)
  thrown : Option Exn

/-- The member `run`. -/
def ParameterPermutator.run [LinearOrder R] (e : ParameterPermutator R) : RunResult R :=
  let indiciesHandover := List.replicate e.arity 0
  match ParameterPermutator._runRecursive e.arity 0
      { self := e, indicies := indiciesHandover, trace := [] } with
  | (s, x) => { self := s.self, trace := s.trace, thrown := x }

/-- The arguments of the calls of the scoring function, in order. -/
def calls : List (Event R) → List ParameterPack
  | [] => []
  | .call pp :: t => pp :: calls t
  | .progress _ :: t => calls t

/-- What the observer saw at each of its invocations, in order. -/
def observations : List (Event R) → List (Snapshot R)
  | [] => []
  | .call _ :: t => observations t
  | .progress s :: t => s :: observations t

/-- The configuration of an engine is everything `run` never assigns to. -/
def SameConfig {R : Type} (e1 e2 : ParameterPermutator R) : Prop :=
  e2.Args = e1.Args ∧ e2.lowest = e1.lowest ∧ e2._userFunction = e1._userFunction ∧
    e2._parameterRanges = e1._parameterRanges ∧ e2._parameterNames = e1._parameterNames ∧
    e2._progressCallback = e1._progressCallback

/-- The state a constructor leaves the object in: one candidate set per
parameter of the scoring function, no evaluation counted, the lowest score as
best score and the empty combination as best parameters. -/
def ParameterPermutator.IsNew {R : Type} (e : ParameterPermutator R) : Prop :=
  e._parameterRanges.length = e.arity ∧ e._prog = 0 ∧ e._bestScore = e.lowest ∧
    e._bestParameters = []

/-! ## The canonical enumeration order -/

/-- The canonical order of the cross product: nested loops, the first
candidate set in the outermost loop and the last one in the innermost. -/
def canonicalOrder : List ParameterRange → List ParameterPack
  | [] => [[]]
  | range :: rest => range.flatMap (fun v => (canonicalOrder rest).map (fun pp => v :: pp))

/-- The index tuples `(i_0, ..., i_{k-1})` with `i_j < n_j`, counted like an
odometer: the last position moves fastest. -/
def indexTuples : List Nat → List (List Nat)
  | [] => [[]]
  | n :: ns => (List.range n).flatMap (fun i => (indexTuples ns).map (fun t => i :: t))

/-- The tuple `(S_0[i_0], ..., S_{k-1}[i_{k-1}])`, if every index is inside its
candidate set and there is one index per set. -/
def pick : List ParameterRange → List Nat → Option ParameterPack
  | [], [] => some []
  | range :: rest, i :: is =>
    match range[i]?, pick rest is with
    | some v, some pp => some (v :: pp)
    | _, _ => none
  | _, _ => none

/-- The product `n_0 * n_1 * ... * n_{k-1}` of the sizes of the candidate sets. -/
def totalPermutations (ranges : List ParameterRange) : Nat :=
  (ranges.map List.length).prod

/-! ## Evaluating a list of combinations -/

/-- The update of the object by the evaluation of one combination: the best
score and parameters are replaced on a strictly greater score, the count goes
up by one. -/
def ParameterPermutator.record [LinearOrder R] (e : ParameterPermutator R)
    (pp : ParameterPack) : ParameterPermutator R :=
  let e1 : ParameterPermutator R :=
    if e._userFunction pp > e._bestScore then
      { e with _bestScore := e._userFunction pp, _bestParameters := pp }
    else e
  { e1 with _prog := (e1._prog + 1) % SIZE_MOD }

/-- One evaluation, on the object and the effects so far, for a combination
that is already built. -/
def track [LinearOrder R] (pp : ParameterPack) (st : ParameterPermutator R × List (Event R)) :
    (ParameterPermutator R × List (Event R)) × Option Exn :=
  if argsMatch st.1.Args pp then
    if st.1._progressCallback then
      ((st.1.record pp, st.2 ++ [Event.call pp, Event.progress (st.1.record pp).snapshot]), none)
    else
      ((st.1.record pp, st.2 ++ [Event.call pp]), some .bad_function_call)
  else (st, some .bad_variant_access)

/-- One evaluation, on the object and the effects so far, for a vector of
indices. -/
def evaluateAt [LinearOrder R] (v : List Nat) (st : ParameterPermutator R × List (Event R)) :
    (ParameterPermutator R × List (Event R)) × Option Exn :=
  match ParameterPermutator.evaluate { self := st.1, indicies := v, trace := st.2 } with
  | (s, x) => ((s.self, s.trace), x)

/-- The effects of evaluating the given combinations one after the other with a
registered observer, none of them failing. -/
def expectedTrace [LinearOrder R] (e : ParameterPermutator R) :
    List ParameterPack → List (Event R)
  | [] => []
  | pp :: rest =>
    Event.call pp :: Event.progress (e.record pp).snapshot :: expectedTrace (e.record pp) rest

/-- The first of the combinations with the greatest score: every combination
before it scores strictly less, and none after it scores more. -/
def IsFirstBest [LinearOrder R] (f : ParameterPack → R) (l : List ParameterPack)
    (best : ParameterPack) : Prop :=
  ∃ before after, l = before ++ best :: after ∧
    (∀ pp ∈ before, f pp < f best) ∧ (∀ pp ∈ after, f pp ≤ f best)

end Model

/-! ## Formatting -/

/-- The text `std::to_string` gives for a `float` or a `double`, the format
`%f`: six digits after the point, the value rounded to the nearest multiple of
`10⁻⁶`, ties to the even one. -/
def fixed6 (q : ℚ) : String :=
  let a := q.num.natAbs * 1000000
  let f := a / q.den
  let r := a % q.den
  let n := if 2 * r < q.den then f else if q.den < 2 * r then f + 1
    else if f % 2 = 0 then f else f + 1
  let frac := toString (n % 1000000)
  (if q < 0 then "-" else "") ++ toString (n / 1000000) ++ "." ++
    String.join (List.replicate (6 - frac.length) "0") ++ frac

/-- The overload of `std::to_string` that the visitor of `to_string` selects for
each alternative: a `bool` is promoted to `int`. -/
def Variant.to_string : Variant → String
  | .bool b => if b then "1" else "0"
  | .uint n => toString n
  | .int i => toString i
  | .float q => fixed6 q
  | .double q => fixed6 q

/-- The member `_getParameterName`. -/
def ParameterPermutator._getParameterName {R : Type} (e : ParameterPermutator R) (i : Nat) :
    Except Exn String :=
  if e._parameterNames.length = 0 then .ok ("P" ++ toString i)
  else
    match e._parameterNames[i]? with
    | none => .error .out_of_range
    | some name => if name.length = 0 then .ok ("P" ++ toString i) else .ok name

/-- The loop of `to_string` over the given positions. -/
def ParameterPermutator.to_stringLoop {R : Type} (e : ParameterPermutator R)
    (pp : ParameterPack) : List Nat → String → Except Exn String
  | [], ret => .ok ret
  | i :: rest, ret =>
    match e._getParameterName i, pp[i]? with
    | .ok name, some arg =>
      e.to_stringLoop pp rest (ret ++ (name ++ "=") ++ (arg.to_string ++ ", "))
    | .error x, _ => .error x
    | _, none => .error .out_of_range

/-- The member `to_string`. -/
def ParameterPermutator.to_string {R : Type} (e : ParameterPermutator R)
    (pp : ParameterPack) : Except Exn String :=
  match e.to_stringLoop pp (List.range e.arity) "\x7b" with
  | .ok ret => .ok (ret ++ "\x7d")
  | .error x => .error x

/-! ## Example engines -/

/-- The value `std::numeric_limits<float>::lowest()`, that is `-FLT_MAX`. -/
def FLT_LOWEST : ℚ := -((2 : ℚ) ^ 128 - (2 : ℚ) ^ 104)

/-- The scoring function `myTrainFunc` of the examples, with exact arithmetic.
The last case is never reached: `_call` passes on only a `bool`, an `int`, a
`float` and a `double`. -/
def myTrainFunc : ParameterPack → ℚ
  | [.bool b, .int i, .float f, .double d] => if b then i * f * d else i + f + d
  | _ => 0

/-- The candidate sets of the examples. -/
def exampleRanges : List ParameterRange :=
  [[.bool true, .bool false], [.int 1, .int 2, .int 3], [.float 10, .float 20],
    [.double (1 / 2), .double 2]]

/-- The engine `ParameterPermutator<float, bool, int, float, double>` that the
examples construct, as the first constructor leaves it. -/
def exampleEngine : ParameterPermutator ℚ :=
  { Args := [.bool, .int, .float, .double], lowest := FLT_LOWEST,
    _userFunction := myTrainFunc, _parameterRanges := exampleRanges, _parameterNames := [],
    _progressCallback := false, _prog := 0, _bestScore := FLT_LOWEST, _bestParameters := [] }

/-- A small engine with an unsigned score: two parameters, a `bool` and an
`int`, scored by the integer when the boolean is set and by 1 otherwise. -/
def smallEngine : ParameterPermutator Nat :=
  { Args := [.bool, .int], lowest := 0,
    _userFunction := fun pp =>
      match pp with
      | [.bool true, .int i] => i.toNat
      | _ => 1,
    _parameterRanges := [[.bool false, .bool true], [.int 1, .int 2]],
    _parameterNames := ["a", "b"],
    _progressCallback := true, _prog := 0, _bestScore := 0, _bestParameters := [] }

/-- An engine with an unsigned score whose scoring function always returns 0,
the lowest value of its score type. -/
def zeroEngine : ParameterPermutator Nat :=
  { Args := [.int], lowest := 0, _userFunction := fun _ => 0,
    _parameterRanges := [[.int 5]], _parameterNames := [],
    _progressCallback := true, _prog := 0, _bestScore := 0, _bestParameters := [] }

/-- An engine whose third candidate value for its one `int` parameter holds a
`bool`. -/
def mismatchEngine : ParameterPermutator Nat :=
  { Args := [.int], lowest := 0,
    _userFunction := fun pp =>
      match pp with
      | [.int i] => i.toNat
      | _ => 0,
    _parameterRanges := [[.int 1, .int 3, .bool true, .int 7]], _parameterNames := [],
    _progressCallback := true, _prog := 0, _bestScore := 0, _bestParameters := [] }

/-- An engine with an unsigned score whose first candidate value scores 0, the
lowest value of its score type, and whose second one holds a `bool` in the
place of an `int`. -/
def lowScoreMismatchEngine : ParameterPermutator Nat :=
  { Args := [.int], lowest := 0,
    _userFunction := fun pp =>
      match pp with
      | [.int i] => i.toNat
      | _ => 0,
    _parameterRanges := [[.int 0, .bool true]], _parameterNames := [],
    _progressCallback := true, _prog := 0, _bestScore := 0, _bestParameters := [] }

/-- The best state agrees with the combinations evaluated so far: the best
parameters are empty or a combination with one value of each candidate set
whose score is the best score, and (for a scoring function with at least one
parameter) they are empty exactly when none of the combinations evaluated so
far scored strictly above the lowest value. -/
def BestConsistent {R : Type} [LinearOrder R] (e : ParameterPermutator R)
    (evaluated : List ParameterPack) (bestScore : R) (bestParameters : ParameterPack) : Prop :=
  (bestParameters = [] ∨
      (bestParameters.length = e.arity ∧
        List.Forall₂ (fun v range => v ∈ range) bestParameters e._parameterRanges ∧
        e._userFunction bestParameters = bestScore)) ∧
    (0 < e.arity →
      (bestParameters = [] ↔ ∀ pp ∈ evaluated, ¬ e.lowest < e._userFunction pp))

/-- An engine for a scoring function without parameters that returns 7, with an
unsigned score. -/
def nullaryEngine : ParameterPermutator Nat :=
  { Args := [], lowest := 0, _userFunction := fun _ => 7,
    _parameterRanges := [], _parameterNames := [],
    _progressCallback := true, _prog := 0, _bestScore := 0, _bestParameters := [] }

/-- The loop of `getReport` over the given positions. -/
def ParameterPermutator.getReportLoop {R : Type} (e : ParameterPermutator R) :
    List Nat → String → Except Exn String
  | [], s => .ok s
  | i :: rest, s =>
    match e._getParameterName i, e._parameterRanges[i]? with
    | .ok name, some range =>
      e.getReportLoop rest (s ++ ("\n" ++ name ++ ": n=" ++ toString range.length))
    | .error x, _ => .error x
    | _, none => .error .out_of_range

/-- The member `getReport`.  It is `const`: it yields the text and no new
state of the object. -/
def ParameterPermutator.getReport {R : Type} (e : ParameterPermutator R) : Except Exn String :=
  match e.getReportLoop (List.range e.arity) "[ParameterPermutator report]" with
  | .ok s =>
    .ok (s ++ "\n-----------------------------" ++
      ("\nTotal number of permutations: " ++ toString e.getNumberOfTotalPermutations))
  | .error x => .error x

/-! ## Names and texts, as the specification words them -/

/-- The resolved name of a parameter: the name supplied for its position if
there is one and it is not empty, the positional default `P<index>`
otherwise. -/
def resolvedName (names : List String) (i : Nat) : String :=
  match names[i]? with
  | some name => if name = "" then "P" ++ toString i else name
  | none => "P" ++ toString i

/-- The decimal text of an integer value, signed or unsigned (no text for a
value that is no integer). -/
def decimalText : Variant → String
  | .uint n => toString n
  | .int i => toString i
  | _ => ""

/-- An engine with three `int` parameters, named for the first one only. -/
def namedEngine : ParameterPermutator Nat :=
  { Args := [.int, .uint, .int], lowest := 0, _userFunction := fun _ => 0,
    _parameterRanges := [[.int 1, .int 2], [.uint 7], [.int (-3), .int 0, .int 3]],
    _parameterNames := ["alpha", "", "gamma"],
    _progressCallback := true, _prog := 0, _bestScore := 0, _bestParameters := [] }

/-! ## The range generators of `linspace.hpp` -/

/-- A value of type `float` as the range generators compute with it: an exact
number, or one of the special values that a division by zero brings in.
Rounding and the sign of zero are left out. -/
inductive FloatValue where
  | finite (q : ℚ)
  | infinite (negative : Bool)
  | nan
  deriving DecidableEq

/-- Addition of `float`s. -/
def FloatValue.add : FloatValue → FloatValue → FloatValue
  | .nan, _ => .nan
  | _, .nan => .nan
  | .finite a, .finite b => .finite (a + b)
  | .finite _, .infinite s => .infinite s
  | .infinite s, .finite _ => .infinite s
  | .infinite s, .infinite t => if s = t then .infinite s else .nan

/-- Multiplication of `float`s: zero times an infinity is no number. -/
def FloatValue.mul : FloatValue → FloatValue → FloatValue
  | .nan, _ => .nan
  | _, .nan => .nan
  | .finite a, .finite b => .finite (a * b)
  | .finite a, .infinite s => if a = 0 then .nan else .infinite (xor (decide (a < 0)) s)
  | .infinite s, .finite a => if a = 0 then .nan else .infinite (xor (decide (a < 0)) s)
  | .infinite s, .infinite t => .infinite (xor s t)

/-- Division of `float`s: a number divided by zero is an infinity, zero divided
by zero is no number. -/
def FloatValue.div : FloatValue → FloatValue → FloatValue
  | .nan, _ => .nan
  | _, .nan => .nan
  | .finite a, .finite b =>
    if b = 0 then (if a = 0 then .nan else .infinite (decide (a < 0))) else .finite (a / b)
  | .finite _, .infinite _ => .finite 0
  | .infinite s, .finite b => .infinite (xor s (decide (b < 0)))
  | .infinite _, .infinite _ => .nan

/-- What the range generators cannot return in this embedding: a `float` that
is no number or an infinity, or the result of a conversion to an integer type
that cannot hold the value (undefined in C++). -/
inductive Fault where
  | not_a_number
  | infinity
  | out_of_range
  deriving DecidableEq

/-- Equality of results is decidable. -/
instance Except.decEq {ε α : Type} [DecidableEq ε] [DecidableEq α] : DecidableEq (Except ε α)
  | .ok a, .ok b =>
    if h : a = b then isTrue (congrArg Except.ok h) else isFalse (fun h2 => h (Except.ok.inj h2))
  | .error a, .error b =>
    if h : a = b then isTrue (congrArg Except.error h)
    else isFalse (fun h2 => h (Except.error.inj h2))
  | .ok _, .error _ => isFalse (fun h => Except.noConfusion h)
  | .error _, .ok _ => isFalse (fun h => Except.noConfusion h)

/-- The difference `end - start` computed in the type `T`: unsigned
subtraction wraps around. -/
def differenceIn (T : Kind) (start stop : ℚ) : ℚ :=
  match T with
  | .uint => if stop < start then stop - start + 4294967296 else stop - start
  | _ => stop - start

/-- The conversion `static_cast<T>(c)` of a `float`, stored in a `Variant`:
towards zero for the integer types, not zero for `bool`. -/
def castTo (T : Kind) : FloatValue → Except Fault Variant
  | .finite q =>
    match T with
    | .bool => .ok (.bool (decide (q ≠ 0)))
    | .uint =>
      if -1 < q ∧ Int.tdiv q.num q.den < 4294967296 then
        .ok (.uint (Int.tdiv q.num q.den).toNat)
      else .error .out_of_range
    | .int =>
      if -2147483648 ≤ Int.tdiv q.num q.den ∧ Int.tdiv q.num q.den < 2147483648 then
        .ok (.int (Int.tdiv q.num q.den))
      else .error .out_of_range
    | .float => .ok (.float q)
    | .double => .ok (.double q)
  | .infinite _ =>
    match T with
    | .bool => .ok (.bool true)
    | _ => .error .infinity
  | .nan =>
    match T with
    | .bool => .ok (.bool true)
    | _ => .error .not_a_number

/-- The first loop of `linspace_n`, which fills the vector `calc`: the step is
`range / (n - 1)` or `range / n`, with `n - 1` computed in `size_t`. -/
def linspace_calc (T : Kind) (start stop : ℚ) (n : Nat) (endpoint : Bool) : List FloatValue :=
  let range : FloatValue := .finite (differenceIn T start stop)
  let step : FloatValue :=
    if endpoint then range.div (.finite (((n + SIZE_MOD - 1) % SIZE_MOD : Nat) : ℚ))
    else range.div (.finite (n : ℚ))
  (List.range n).map (fun (i : Nat) =>
    (FloatValue.finite start).add ((FloatValue.finite (i : ℚ)).mul step))

/-- The second loop of `linspace_n`: every value of `calc` is converted and
pushed to `ret`.  The flag `found` is set when the value is in `ret` already,
and never read. -/
def linspace_convert (T : Kind) : List FloatValue → List Variant → Except Fault (List Variant)
  | [], ret => .ok ret
  | c :: rest, ret =>
    match castTo T c with
    | .error x => .error x
    | .ok v =>
      let _found : Bool := ret.any (fun r => decide (v = r))
      linspace_convert T rest (ret ++ [v])

/-- The function template `linspace_n<T>`. -/
def linspace_n (T : Kind) (start stop : ℚ) (n : Nat) (endpoint : Bool) :
    Except Fault (List Variant) :=
  linspace_convert T (linspace_calc T start stop n endpoint) []

/-- The conversion `static_cast<size_t>(x)` of a `float`. -/
def castToSize : FloatValue → Except Fault Nat
  | .finite q =>
    if -1 < q ∧ Int.tdiv q.num q.den < SIZE_MOD then .ok (Int.tdiv q.num q.den).toNat
    else .error .out_of_range
  | .infinite _ => .error .infinity
  | .nan => .error .not_a_number

/-- The function template `linspace_step<T>`: the number of values is derived
from the step, and `linspace_n` is called with that number. -/
def linspace_step (T : Kind) (start stop : ℚ) (step : ℚ) (endpoint : Bool) :
    Except Fault (List Variant) :=
  let range : FloatValue := .finite (differenceIn T start stop)
  match castToSize (range.div (.finite step)) with
  | .error x => .error x
  | .ok k => linspace_n T start stop ((k + 1) % SIZE_MOD) endpoint

/-- The numbers `start + k * step` for `k = 0, ..., count - 1`, with the step
`(end - start) / (count - 1)` when the end point is included and
`(end - start) / count` when it is not. -/
def evenlySpaced (start stop : ℚ) (count : Nat) (endpoint : Bool) : List ℚ :=
  (List.range count).map (fun (k : Nat) =>
    start + (k : ℚ) * (if endpoint then (stop - start) / ((count : ℚ) - 1)
      else (stop - start) / (count : ℚ)))

/-! # Proofs -/

/-! ## Loops -/

section Loops

variable {α σ : Type}

theorem forLoop_append (body : α → σ → σ × Option Exn) (l1 l2 : List α) (s : σ) :
    forLoop body (l1 ++ l2) s =
      match forLoop body l1 s with
      | (s1, none) => forLoop body l2 s1
      | (s1, some x) => (s1, some x) := by
  induction l1 generalizing s with
  | nil => simp [forLoop]
  | cons a l ih =>
    simp only [List.cons_append, forLoop]
    rcases h : body a s with ⟨s1, _ | x⟩
    · simp [ih]
    · simp

end Loops

/-! ## Building a combination from a vector of indices -/

theorem packLoop_shift (range : ParameterRange) (ranges : List ParameterRange) (i : Nat)
    (is : List Nat) (l : List Nat) :
    packLoop (range :: ranges) (i :: is) (l.map Nat.succ) = packLoop ranges is l := by
  induction l with
  | nil => simp [packLoop]
  | cons j l ih =>
    simp only [List.map_cons, packLoop, List.getElem?_cons_succ, ih]

theorem packLoop_range (ranges : List ParameterRange) (v : List Nat)
    (hv : v.length = ranges.length) :
    packLoop ranges v (List.range ranges.length) =
      match pick ranges v with
      | some pp => .ok pp
      | none => .error .out_of_range := by
  induction ranges generalizing v with
  | nil =>
    cases v with
    | nil => simp [packLoop, pick]
    | cons _ _ => simp at hv
  | cons range ranges ih =>
    cases v with
    | nil => simp at hv
    | cons i is =>
      have hlen : is.length = ranges.length := by simpa using hv
      rw [List.length_cons, List.range_succ_eq_map]
      simp only [packLoop, pick, List.getElem?_cons_zero]
      rw [packLoop_shift, ih is hlen]
      cases hr : range[i]? with
      | none => simp
      | some a => cases hp : pick ranges is <;> simp

/-! ## One evaluation -/

section Evaluation

variable {R : Type} [LinearOrder R]

theorem evaluateAt_eq_track (v : List Nat) (pp : ParameterPack)
    (st : ParameterPermutator R × List (Event R))
    (hlen : st.1._parameterRanges.length = st.1.arity)
    (hv : v.length = st.1._parameterRanges.length)
    (hp : pick st.1._parameterRanges v = some pp) :
    evaluateAt v st = track pp st := by
  have hmk : st.1._makeParameterPack v = .ok pp := by
    unfold ParameterPermutator._makeParameterPack
    rw [if_neg (by simp [hv, hlen]), ← hlen, packLoop_range _ _ hv, hp]
  unfold evaluateAt ParameterPermutator.evaluate track
  simp only [hmk, ParameterPermutator._call]
  by_cases hm : argsMatch st.1.Args pp = true
  · simp only [hm, if_true]
    by_cases hc : st.1._progressCallback = true
    · by_cases hs : st.1._userFunction pp > st.1._bestScore <;>
        simp [hc, hs, ParameterPermutator.record]
    · by_cases hs : st.1._userFunction pp > st.1._bestScore <;>
        simp [hc, hs, ParameterPermutator.record]
  · simp [hm]

theorem sameConfig_record (e : ParameterPermutator R) (pp : ParameterPack) :
    SameConfig e (e.record pp) := by
  unfold SameConfig ParameterPermutator.record
  by_cases hs : e._userFunction pp > e._bestScore <;> simp [hs]

theorem sameConfig_track (pp : ParameterPack) (st : ParameterPermutator R × List (Event R)) :
    SameConfig st.1 (track pp st).1.1 := by
  unfold track
  split_ifs
  · exact sameConfig_record _ _
  · exact sameConfig_record _ _
  · simp [SameConfig]

end Evaluation

section Recursion

theorem sameConfig_refl {R : Type} (e : ParameterPermutator R) : SameConfig e e := by
  simp [SameConfig]

theorem sameConfig_trans {R : Type} {e1 e2 e3 : ParameterPermutator R} (h12 : SameConfig e1 e2)
    (h23 : SameConfig e2 e3) : SameConfig e1 e3 := by
  obtain ⟨a1, a2, a3, a4, a5, a6⟩ := h12
  obtain ⟨b1, b2, b3, b4, b5, b6⟩ := h23
  exact ⟨b1.trans a1, b2.trans a2, b3.trans a3, b4.trans a4, b5.trans a5, b6.trans a6⟩

variable {R : Type} [LinearOrder R]

theorem sameConfig_foldl_record (l : List ParameterPack) (e : ParameterPermutator R) :
    SameConfig e (l.foldl ParameterPermutator.record e) := by
  induction l generalizing e with
  | nil => exact sameConfig_refl _
  | cons pp l ih => exact sameConfig_trans (sameConfig_record e pp) (ih _)

theorem sameConfig_evaluateAt (v : List Nat) (st : ParameterPermutator R × List (Event R)) :
    SameConfig st.1 (evaluateAt v st).1.1 := by
  unfold evaluateAt ParameterPermutator.evaluate
  cases h1 : st.1._makeParameterPack v with
  | error x => simp [SameConfig]
  | ok pp =>
    cases h2 : st.1._call pp with
    | error x => simp [SameConfig, h2]
    | ok score =>
      by_cases hs : score > st.1._bestScore <;>
        by_cases hc : st.1._progressCallback = true <;> simp [SameConfig, h2, hs, hc]

theorem sameConfig_sweep (l : List (List Nat)) (st : ParameterPermutator R × List (Event R)) :
    SameConfig st.1 (forLoop evaluateAt l st).1.1 := by
  induction l generalizing st with
  | nil => exact sameConfig_refl _
  | cons v l ih =>
    simp only [forLoop]
    have h := sameConfig_evaluateAt v st
    rcases hev : evaluateAt v st with ⟨s1, _ | x⟩
    · rw [hev] at h
      exact sameConfig_trans h (ih s1)
    · rw [hev] at h
      exact h

theorem evaluate_eq_evaluateAt (s : RunState R) :
    ParameterPermutator.evaluate s =
      ({ self := (evaluateAt s.indicies (s.self, s.trace)).1.1, indicies := s.indicies,
         trace := (evaluateAt s.indicies (s.self, s.trace)).1.2 },
       (evaluateAt s.indicies (s.self, s.trace)).2) := by
  unfold evaluateAt ParameterPermutator.evaluate
  cases h1 : s.self._makeParameterPack s.indicies with
  | error x => simp
  | ok pp =>
    cases h2 : s.self._call pp with
    | error x => simp [h2]
    | ok score =>
      by_cases hc : s.self._progressCallback = true <;>
        by_cases hs : score > s.self._bestScore <;> simp [h2, hs, hc]

theorem take_succ_set (l : List Nat) (i c : Nat) (h : i < l.length) :
    (l.set i c).take (i + 1) = l.take i ++ [c] := by
  induction l generalizing i with
  | nil => simp at h
  | cons a l ih =>
    cases i with
    | zero => simp
    | succ i => simpa using ih i (by simpa using h)

/-- The recursion at depth `i` evaluates the index vectors that extend the first
`i` entries of the vector it was given, in odometer order. -/
theorem runRecursive_eq (ranges : List ParameterRange) (depth : Nat) :
    ∀ (i : Nat) (s : RunState R), i + depth = ranges.length →
      s.self._parameterRanges = ranges → s.self.arity = ranges.length →
      s.indicies.length = ranges.length →
      ∃ idx : List Nat, idx.length = ranges.length ∧ idx.take i = s.indicies.take i ∧
        ParameterPermutator._runRecursive depth i s =
          ({ self := (forLoop evaluateAt
                ((indexTuples ((ranges.drop i).map List.length)).map
                  (fun t => s.indicies.take i ++ t)) (s.self, s.trace)).1.1,
             indicies := idx,
             trace := (forLoop evaluateAt
                ((indexTuples ((ranges.drop i).map List.length)).map
                  (fun t => s.indicies.take i ++ t)) (s.self, s.trace)).1.2 },
           (forLoop evaluateAt
                ((indexTuples ((ranges.drop i).map List.length)).map
                  (fun t => s.indicies.take i ++ t)) (s.self, s.trace)).2) := by
  induction depth with
  | zero =>
    intro i s hi hr ha hl
    have hi2 : i = ranges.length := by omega
    refine ⟨s.indicies, hl, rfl, ?_⟩
    have hdrop : ranges.drop i = [] := by rw [hi2]; simp
    have htake : s.indicies.take i = s.indicies := by rw [hi2, ← hl]; simp
    rw [ParameterPermutator._runRecursive, if_pos (by rw [ha, hi2])]
    rw [hdrop, htake, evaluate_eq_evaluateAt]
    simp only [List.map_nil, indexTuples, List.map_cons, List.append_nil, forLoop]
    rcases evaluateAt s.indicies (s.self, s.trace) with ⟨s1, _ | x⟩ <;> rfl
  | succ depth ih =>
    intro i s hi hr ha hl
    have hilt : i < ranges.length := by omega
    obtain ⟨range, hrange⟩ : ∃ range, ranges[i]? = some range :=
      ⟨ranges[i], List.getElem?_eq_getElem hilt⟩
    have hdrop : ranges.drop i = range :: ranges.drop (i + 1) := by
      rw [List.drop_eq_getElem_cons hilt]
      congr 1
      exact Option.some.inj ((List.getElem?_eq_getElem hilt).symm.trans hrange)
    -- the loop over the values of `curi`
    have hloop : ∀ (cs : List Nat) (s1 : RunState R),
        s1.self._parameterRanges = ranges → s1.self.arity = ranges.length →
        s1.indicies.length = ranges.length →
        ∃ idx : List Nat, idx.length = ranges.length ∧ idx.take i = s1.indicies.take i ∧
          forLoop (fun curi s2 => ParameterPermutator._runRecursive depth (i + 1)
              { s2 with indicies := s2.indicies.set i curi }) cs s1 =
            ({ self := (forLoop evaluateAt
                  (cs.flatMap (fun c => (indexTuples ((ranges.drop (i + 1)).map List.length)).map
                    (fun t => s1.indicies.take i ++ c :: t))) (s1.self, s1.trace)).1.1,
               indicies := idx,
               trace := (forLoop evaluateAt
                  (cs.flatMap (fun c => (indexTuples ((ranges.drop (i + 1)).map List.length)).map
                    (fun t => s1.indicies.take i ++ c :: t))) (s1.self, s1.trace)).1.2 },
             (forLoop evaluateAt
                  (cs.flatMap (fun c => (indexTuples ((ranges.drop (i + 1)).map List.length)).map
                    (fun t => s1.indicies.take i ++ c :: t))) (s1.self, s1.trace)).2) := by
      intro cs
      induction cs with
      | nil =>
        intro s1 _ _ h3
        exact ⟨s1.indicies, h3, rfl, by simp [forLoop]⟩
      | cons c cs ihc =>
        intro s1 h1 h2 h3
        obtain ⟨idx1, hidx1, htake1, hrun⟩ :=
          ih (i + 1) { s1 with indicies := s1.indicies.set i c } (by omega) h1 h2
            (by simpa using h3)
        have hset : (s1.indicies.set i c).take (i + 1) = s1.indicies.take i ++ [c] := by
          exact take_succ_set _ _ _ (by omega)
        simp only [hset] at hrun htake1
        have hmapeq : (fun t => (s1.indicies.take i ++ [c]) ++ t) =
            (fun t => s1.indicies.take i ++ c :: t) := by
          funext t; simp
        rw [hmapeq] at hrun
        have htk : idx1.take i = s1.indicies.take i := by
          have := congrArg (List.take i) htake1
          simpa [List.take_take, List.take_append_eq_append_take, h3, Nat.le_of_lt hilt] using this
        simp only [forLoop, List.flatMap_cons, forLoop_append, hrun]
        have hcfg := sameConfig_sweep
          ((indexTuples ((ranges.drop (i + 1)).map List.length)).map
            (fun t => s1.indicies.take i ++ c :: t)) (s1.self, s1.trace)
        rcases hsw : forLoop evaluateAt
          ((indexTuples ((ranges.drop (i + 1)).map List.length)).map
            (fun t => s1.indicies.take i ++ c :: t)) (s1.self, s1.trace) with ⟨⟨e1, tr1⟩, _ | x⟩
        · rw [hsw] at hcfg
          obtain ⟨idx2, hidx2, htake2, hrest⟩ :=
            ihc { self := e1, indicies := idx1, trace := tr1 }
              (by rw [← h1]; exact hcfg.2.2.2.1)
              (by rw [← h2]; unfold ParameterPermutator.arity; rw [hcfg.1])
              hidx1
          simp only at hrest htake2
          rw [htk] at hrest htake2
          exact ⟨idx2, hidx2, htake2, by simp [hrest]⟩
        · exact ⟨idx1, hidx1, htk, by simp⟩
    obtain ⟨idx, hidx, htake, hfor⟩ := hloop (List.range range.length) s hr ha hl
    refine ⟨idx, hidx, htake, ?_⟩
    rw [ParameterPermutator._runRecursive, if_neg (by rw [ha]; omega)]
    simp only [hr, hrange, hfor, hdrop, List.map_cons, indexTuples, List.map_flatMap,
      List.map_map]
    rfl

end Recursion

/-! ## `run` as a sweep over the canonical order -/

section Sweep

variable {R : Type} [LinearOrder R]

theorem indexTuples_pick (ranges : List ParameterRange) :
    List.Forall₂ (fun v pp => v.length = ranges.length ∧ pick ranges v = some pp)
      (indexTuples (ranges.map List.length)) (canonicalOrder ranges) := by
  induction ranges with
  | nil => simp [indexTuples, canonicalOrder, pick]
  | cons range rest ih =>
    simp only [List.map_cons, indexTuples, canonicalOrder]
    have hhead : List.Forall₂ (fun (i : Nat) (v : Variant) => range[i]? = some v)
        (List.range range.length) range := by
      rw [List.forall₂_iff_get]
      refine ⟨by simp, fun i h1 h2 => ?_⟩
      simp [List.getElem?_eq_getElem h2]
    refine List.rel_flatMap hhead ?_
    intro i v hiv
    refine List.rel_map ?_ ih
    intro t pp htp
    simp [pick, hiv, htp.1, htp.2]

theorem sweep_eq (ranges : List ParameterRange) (l1 : List (List Nat)) (l2 : List ParameterPack)
    (h : List.Forall₂ (fun v pp => v.length = ranges.length ∧ pick ranges v = some pp) l1 l2)
    (st : ParameterPermutator R × List (Event R))
    (hr : st.1._parameterRanges = ranges) (ha : st.1.arity = ranges.length) :
    forLoop evaluateAt l1 st = forLoop track l2 st := by
  induction h generalizing st with
  | nil => simp [forLoop]
  | @cons v pp l1 l2 hab _ ih =>
    simp only [forLoop]
    rw [evaluateAt_eq_track v pp st (by rw [hr, ha]) (by rw [hr]; exact hab.1)
      (by rw [hr]; exact hab.2)]
    have hcfg := sameConfig_track pp st
    rcases htr : track pp st with ⟨s1, _ | x⟩
    · rw [htr] at hcfg
      exact ih s1 (by rw [← hr]; exact hcfg.2.2.2.1)
        (by rw [← ha]; unfold ParameterPermutator.arity; rw [hcfg.1])
    · rfl

/-- The member `run` evaluates the combinations of the canonical order one
after the other, from the state the object is in. -/
theorem run_eq_sweep (e : ParameterPermutator R) (hlen : e._parameterRanges.length = e.arity) :
    e.run =
      { self := (forLoop track (canonicalOrder e._parameterRanges) (e, [])).1.1,
        trace := (forLoop track (canonicalOrder e._parameterRanges) (e, [])).1.2,
        thrown := (forLoop track (canonicalOrder e._parameterRanges) (e, [])).2 } := by
  obtain ⟨idx, _, _, hrun⟩ := runRecursive_eq e._parameterRanges e.arity 0
    { self := e, indicies := List.replicate e.arity 0, trace := [] } (by omega) rfl hlen.symm
    (by simp [hlen])
  unfold ParameterPermutator.run
  simp only [hrun]
  have hid : (fun t : List Nat => t) = id := rfl
  simp only [List.take_zero, List.nil_append, List.drop_zero, hid, List.map_id]
  rw [sweep_eq e._parameterRanges _ _ (indexTuples_pick e._parameterRanges) (e, []) rfl
    hlen.symm]

theorem sweep_ok (l : List ParameterPack) (st : ParameterPermutator R × List (Event R))
    (hcb : st.1._progressCallback = true) (hk : ∀ pp ∈ l, argsMatch st.1.Args pp = true) :
    forLoop track l st =
      ((l.foldl ParameterPermutator.record st.1, st.2 ++ expectedTrace st.1 l), none) := by
  induction l generalizing st with
  | nil => simp [forLoop, expectedTrace]
  | cons pp l ih =>
    have hm := hk pp (List.mem_cons_self _ _)
    have hcfg := sameConfig_record st.1 pp
    simp only [forLoop, track, hm, hcb, if_true]
    rw [ih _ (by simpa using hcfg.2.2.2.2.2.trans hcb)
      (fun q hq => by simpa [hcfg.1] using hk q (List.mem_cons_of_mem _ hq))]
    simp [expectedTrace]

theorem sweep_mismatch (before : List ParameterPack) (bad : ParameterPack)
    (after : List ParameterPack) (st : ParameterPermutator R × List (Event R))
    (hcb : st.1._progressCallback = true)
    (hk : ∀ pp ∈ before, argsMatch st.1.Args pp = true)
    (hbad : argsMatch st.1.Args bad = false) :
    forLoop track (before ++ bad :: after) st =
      ((before.foldl ParameterPermutator.record st.1, st.2 ++ expectedTrace st.1 before),
        some .bad_variant_access) := by
  have hcfg := sameConfig_foldl_record before st.1
  rw [forLoop_append, sweep_ok before st hcb hk]
  simp [forLoop, track, hcfg.1, hbad]

end Sweep

/-! ## The state after a list of evaluations -/

section Fold

variable {R : Type} [LinearOrder R]

theorem prog_record (e : ParameterPermutator R) (pp : ParameterPack) :
    (e.record pp)._prog = (e._prog + 1) % SIZE_MOD := by
  unfold ParameterPermutator.record
  by_cases hs : e._userFunction pp > e._bestScore <;> simp [hs]

theorem prog_foldl_record (l : List ParameterPack) (e : ParameterPermutator R) :
    (l.foldl ParameterPermutator.record e)._prog % SIZE_MOD = (e._prog + l.length) % SIZE_MOD := by
  induction l generalizing e with
  | nil => simp
  | cons pp l ih =>
    rw [List.foldl_cons, ih, prog_record, List.length_cons, Nat.mod_add_mod]
    congr 1
    omega

/-- After a list of evaluations either nothing scored above the best score the
object started with, and the best is what it was, or the best is the first of
the best combinations of the list. -/
theorem best_foldl_record (l : List ParameterPack) (e : ParameterPermutator R) :
    ((∀ pp ∈ l, e._userFunction pp ≤ e._bestScore) ∧
        (l.foldl ParameterPermutator.record e)._bestScore = e._bestScore ∧
        (l.foldl ParameterPermutator.record e)._bestParameters = e._bestParameters) ∨
      (IsFirstBest e._userFunction l (l.foldl ParameterPermutator.record e)._bestParameters ∧
        (l.foldl ParameterPermutator.record e)._bestScore =
          e._userFunction (l.foldl ParameterPermutator.record e)._bestParameters ∧
        e._bestScore < (l.foldl ParameterPermutator.record e)._bestScore) := by
  induction l generalizing e with
  | nil => left; simp
  | cons a l ih =>
    have hcfg := sameConfig_record e a
    have hf : (e.record a)._userFunction = e._userFunction := hcfg.2.2.1
    rw [List.foldl_cons]
    by_cases hs : e._userFunction a > e._bestScore
    · have hb : (e.record a)._bestScore = e._userFunction a := by
        simp [ParameterPermutator.record, hs]
      have hp : (e.record a)._bestParameters = a := by
        simp [ParameterPermutator.record, hs]
      right
      rcases ih (e.record a) with ⟨hle, hbs, hbp⟩ | ⟨⟨before, after, hsplit, hb1, hb2⟩, hbs, hlt⟩
      · rw [hf, hb] at hle
        rw [hbs, hbp, hb, hp]
        exact ⟨⟨[], l, rfl, by simp, hle⟩, rfl, hs⟩
      · rw [hf] at hb1 hb2 hbs
        rw [hb] at hlt
        refine ⟨⟨a :: before, after, congrArg (List.cons a) hsplit, ?_, hb2⟩, hbs, lt_trans hs hlt⟩
        intro pp hpp
        rcases List.mem_cons.mp hpp with rfl | hmem
        · rw [← hbs]; exact hlt
        · exact hb1 pp hmem
    · have hb : (e.record a)._bestScore = e._bestScore := by
        simp [ParameterPermutator.record, hs]
      have hp : (e.record a)._bestParameters = e._bestParameters := by
        simp [ParameterPermutator.record, hs]
      have hale : e._userFunction a ≤ e._bestScore := not_lt.mp hs
      rcases ih (e.record a) with ⟨hle, hbs, hbp⟩ | ⟨⟨before, after, hsplit, hb1, hb2⟩, hbs, hlt⟩
      · left
        rw [hf, hb] at hle
        refine ⟨?_, hbs.trans hb, hbp.trans hp⟩
        intro pp hpp
        rcases List.mem_cons.mp hpp with rfl | hmem
        · exact hale
        · exact hle pp hmem
      · right
        rw [hf] at hb1 hb2 hbs
        rw [hb] at hlt
        refine ⟨⟨a :: before, after, congrArg (List.cons a) hsplit, ?_, hb2⟩, hbs, hlt⟩
        intro pp hpp
        rcases List.mem_cons.mp hpp with rfl | hmem
        · rw [← hbs]; exact lt_of_le_of_lt hale hlt
        · exact hb1 pp hmem

end Fold

/-! ## Reading a trace -/

section Trace

variable {R : Type} [LinearOrder R]

theorem calls_expectedTrace (l : List ParameterPack) (e : ParameterPermutator R) :
    calls (expectedTrace e l) = l := by
  induction l generalizing e with
  | nil => rfl
  | cons pp l ih => simp [expectedTrace, calls, ih]

theorem length_observations_expectedTrace (l : List ParameterPack) (e : ParameterPermutator R) :
    (observations (expectedTrace e l)).length = l.length := by
  induction l generalizing e with
  | nil => rfl
  | cons pp l ih => simp [expectedTrace, observations, ih]

/-- The `n`-th observation (counted from 0) shows the state after the first
`n + 1` evaluations. -/
theorem getElem?_observations_expectedTrace (l : List ParameterPack) (e : ParameterPermutator R)
    (n : Nat) (hn : n < l.length) :
    (observations (expectedTrace e l))[n]? =
      some ((l.take (n + 1)).foldl ParameterPermutator.record e).snapshot := by
  induction l generalizing e n with
  | nil => simp at hn
  | cons pp l ih =>
    cases n with
    | zero => simp [expectedTrace, observations]
    | succ n =>
      simp only [expectedTrace, observations, List.getElem?_cons_succ, List.take_succ_cons,
        List.foldl_cons]
      exact ih _ n (by simpa using hn)

end Trace

/-! ## The canonical order -/

theorem mem_indexTuples (ns : List Nat) (t : List Nat) :
    t ∈ indexTuples ns ↔ List.Forall₂ (fun i n => i < n) t ns := by
  induction ns generalizing t with
  | nil => simp [indexTuples]
  | cons n ns ih =>
    simp only [indexTuples, List.mem_flatMap, List.mem_range, List.mem_map]
    constructor
    · rintro ⟨i, hi, u, hu, rfl⟩
      exact List.Forall₂.cons hi ((ih u).mp hu)
    · intro h
      cases h with
      | cons hi hrest => exact ⟨_, hi, _, (ih _).mpr hrest, rfl⟩

theorem pairwise_indexTuples (ns : List Nat) :
    (indexTuples ns).Pairwise (List.Lex (fun i j => i < j)) := by
  induction ns with
  | nil => simp [indexTuples]
  | cons n ns ih =>
    simp only [indexTuples]
    rw [List.pairwise_flatMap]
    constructor
    · intro i _
      rw [List.pairwise_map]
      exact ih.imp (fun h => List.Lex.cons h)
    · have hlt : (List.range n).Pairwise (fun i j => i < j) := List.pairwise_lt_range n
      refine hlt.imp ?_
      intro i j hij u hu v hv
      obtain ⟨u1, _, rfl⟩ := List.mem_map.mp hu
      obtain ⟨v1, _, rfl⟩ := List.mem_map.mp hv
      exact List.Lex.rel hij

theorem canonicalOrder_eq_pick (ranges : List ParameterRange) :
    (canonicalOrder ranges).map some = (indexTuples (ranges.map List.length)).map (pick ranges) := by
  have h := indexTuples_pick ranges
  generalize indexTuples (ranges.map List.length) = l1 at h
  generalize canonicalOrder ranges = l2 at h
  induction h with
  | nil => rfl
  | cons hab _ ih => simp [hab.2, ih]

theorem length_flatMap_map {α β γ : Type} (range : List α) (l : List β) (g : α → β → γ) :
    (range.flatMap (fun v => l.map (g v))).length = range.length * l.length := by
  induction range with
  | nil => simp
  | cons a range ih =>
    rw [List.flatMap_cons, List.length_append, ih, List.length_map, List.length_cons,
      Nat.succ_mul, Nat.add_comm]

theorem length_canonicalOrder (ranges : List ParameterRange) :
    (canonicalOrder ranges).length = totalPermutations ranges := by
  induction ranges with
  | nil => simp [canonicalOrder, totalPermutations]
  | cons range rest ih =>
    simp only [canonicalOrder, totalPermutations, List.map_cons, List.prod_cons]
    rw [length_flatMap_map, ih]
    rfl

theorem foldl_size_mul (ranges : List ParameterRange) (N : Nat) :
    ranges.foldl (fun N v => (N * v.length) % SIZE_MOD) N % SIZE_MOD =
      (N * totalPermutations ranges) % SIZE_MOD := by
  induction ranges generalizing N with
  | nil => simp [totalPermutations]
  | cons range rest ih =>
    rw [List.foldl_cons, ih]
    simp only [totalPermutations, List.map_cons, List.prod_cons]
    rw [Nat.mod_mul_mod, Nat.mul_assoc]

theorem foldl_size_lt (ranges : List ParameterRange) (N : Nat) (hN : N < SIZE_MOD) :
    ranges.foldl (fun N v => (N * v.length) % SIZE_MOD) N < SIZE_MOD := by
  induction ranges generalizing N with
  | nil => exact hN
  | cons range rest ih =>
    rw [List.foldl_cons]
    exact ih _ (Nat.mod_lt _ (by decide))

theorem getNumberOfTotalPermutations_eq {R : Type} (e : ParameterPermutator R) :
    e.getNumberOfTotalPermutations = totalPermutations e._parameterRanges % SIZE_MOD := by
  unfold ParameterPermutator.getNumberOfTotalPermutations
  have h := foldl_size_mul e._parameterRanges 1
  rw [Nat.one_mul] at h
  rw [← h]
  exact (Nat.mod_eq_of_lt (foldl_size_lt e._parameterRanges 1 (by decide))).symm

/-! ## What `run` does -/

section Run

variable {R : Type} [LinearOrder R]

theorem exists_first_mismatch {α : Type} (p : α → Bool) (l : List α)
    (h : ¬ ∀ a ∈ l, p a = true) :
    ∃ before bad after, l = before ++ bad :: after ∧ (∀ a ∈ before, p a = true) ∧
      p bad = false := by
  induction l with
  | nil => exact absurd (by simp) h
  | cons a l ih =>
    by_cases ha : p a = true
    · have hl : ¬ ∀ b ∈ l, p b = true := by
        intro hall
        apply h
        intro b hb
        rcases List.mem_cons.mp hb with rfl | hmem
        · exact ha
        · exact hall b hmem
      obtain ⟨before, bad, after, hsplit, hbefore, hbad⟩ := ih hl
      refine ⟨a :: before, bad, after, congrArg (List.cons a) hsplit, ?_, hbad⟩
      intro b hb
      rcases List.mem_cons.mp hb with rfl | hmem
      · exact ha
      · exact hbefore b hmem
    · exact ⟨[], a, l, rfl, by simp, by simpa using ha⟩

/-- A run with a registered observer in which no combination fails the
extraction of the arguments: every combination of the canonical order is
evaluated and observed, and `run` returns. -/
theorem run_ok (e : ParameterPermutator R) (hlen : e._parameterRanges.length = e.arity)
    (hcb : e._progressCallback = true)
    (hk : ∀ pp ∈ canonicalOrder e._parameterRanges, argsMatch e.Args pp = true) :
    e.run =
      { self := (canonicalOrder e._parameterRanges).foldl ParameterPermutator.record e,
        trace := expectedTrace e (canonicalOrder e._parameterRanges),
        thrown := none } := by
  rw [run_eq_sweep e hlen, sweep_ok _ (e, []) hcb hk]
  simp

/-- A run with a registered observer in which a combination fails the
extraction of the arguments: the combinations before the first such one are
evaluated and observed, then `run` is left by `std::bad_variant_access`. -/
theorem run_mismatch (e : ParameterPermutator R) (hlen : e._parameterRanges.length = e.arity)
    (hcb : e._progressCallback = true) (before : List ParameterPack) (bad : ParameterPack)
    (after : List ParameterPack)
    (hsplit : canonicalOrder e._parameterRanges = before ++ bad :: after)
    (hk : ∀ pp ∈ before, argsMatch e.Args pp = true) (hbad : argsMatch e.Args bad = false) :
    e.run =
      { self := before.foldl ParameterPermutator.record e,
        trace := expectedTrace e before,
        thrown := some .bad_variant_access } := by
  rw [run_eq_sweep e hlen, hsplit, sweep_mismatch before bad after (e, []) hcb hk hbad]
  simp

theorem run_thrown_iff (e : ParameterPermutator R) (hlen : e._parameterRanges.length = e.arity)
    (hcb : e._progressCallback = true) :
    e.run.thrown = none ↔
      ∀ pp ∈ canonicalOrder e._parameterRanges, argsMatch e.Args pp = true := by
  constructor
  · intro hnone
    by_contra hk
    obtain ⟨before, bad, after, hsplit, hbefore, hbad⟩ :=
      exists_first_mismatch (argsMatch e.Args) _ hk
    rw [run_mismatch e hlen hcb before bad after hsplit hbefore hbad] at hnone
    simp at hnone
  · intro hk
    rw [run_ok e hlen hcb hk]

/-- The best score an observer reads at its `N`-th invocation, for a new engine
evaluating the list `l`. -/
theorem observed_best (e : ParameterPermutator R) (hbest : e._bestScore = e.lowest)
    (hlow : ∀ pp, e.lowest ≤ e._userFunction pp) (l : List ParameterPack) (N : Nat)
    (s : Snapshot R) (h1 : 1 ≤ N) (hs : (observations (expectedTrace e l))[N - 1]? = some s) :
    ((l.take N).map e._userFunction).maximum = (s.getBestScore : WithBot R) := by
  have hlt : N - 1 < l.length := by
    have := (List.getElem?_eq_some_iff.mp hs).1
    rwa [length_observations_expectedTrace] at this
  rw [getElem?_observations_expectedTrace l e (N - 1) hlt, Nat.sub_add_cancel h1] at hs
  have hsnap : s.getBestScore = ((l.take N).foldl ParameterPermutator.record e)._bestScore := by
    rw [← Option.some.inj hs]; rfl
  rw [hsnap, List.maximum_eq_coe_iff]
  have hne : l.take N ≠ [] := by
    intro h
    have := congrArg List.length h
    rw [List.length_take, List.length_nil] at this
    omega
  clear hs
  have hB := best_foldl_record (l.take N) e
  generalize (l.take N).foldl ParameterPermutator.record e = e2 at hsnap hB ⊢
  rcases hB with ⟨hle, hbs, _⟩ | ⟨⟨before, after, hsplit, hb1, hb2⟩, hbs, _⟩
  · rw [hbs, hbest]
    rw [hbest] at hle
    constructor
    · obtain ⟨a, t, hat⟩ := List.exists_cons_of_ne_nil hne
      rw [hat]
      have ha : e._userFunction a = e.lowest :=
        le_antisymm (hle a (by rw [hat]; exact List.mem_cons_self _ _)) (hlow a)
      exact List.mem_map.mpr ⟨a, List.mem_cons_self _ _, ha⟩
    · intro x hx
      obtain ⟨pp, hpp, rfl⟩ := List.mem_map.mp hx
      exact hle pp hpp
  · constructor
    · rw [hbs]
      refine List.mem_map.mpr ⟨_, ?_, rfl⟩
      rw [hsplit]
      simp
    · intro x hx
      obtain ⟨pp, hpp, rfl⟩ := List.mem_map.mp hx
      rw [hbs]
      rw [hsplit] at hpp
      rcases List.mem_append.mp hpp with hm | hm
      · exact le_of_lt (hb1 pp hm)
      · rcases List.mem_cons.mp hm with heq | hm2
        · rw [heq]
        · exact hb2 pp hm2

end Run

section Count

variable {R : Type} [LinearOrder R]

theorem prog_foldl_record_lt (l : List ParameterPack) (e : ParameterPermutator R)
    (h : e._prog < SIZE_MOD) : (l.foldl ParameterPermutator.record e)._prog < SIZE_MOD := by
  induction l generalizing e with
  | nil => exact h
  | cons pp l ih =>
    rw [List.foldl_cons]
    exact ih _ (by rw [prog_record]; exact Nat.mod_lt _ (by decide))

theorem prog_foldl_record_eq (l : List ParameterPack) (e : ParameterPermutator R)
    (h : e._prog = 0) : (l.foldl ParameterPermutator.record e)._prog = l.length % SIZE_MOD := by
  have h1 := prog_foldl_record l e
  rw [h, Nat.zero_add] at h1
  rw [← h1]
  exact (Nat.mod_eq_of_lt (prog_foldl_record_lt l e (by rw [h]; decide))).symm

end Count

theorem getNumberOfTotalPermutations_congr {R : Type} (e1 e2 : ParameterPermutator R)
    (h : SameConfig e1 e2) :
    e2.getNumberOfTotalPermutations = e1.getNumberOfTotalPermutations := by
  unfold ParameterPermutator.getNumberOfTotalPermutations
  rw [h.2.2.2.1]

/-! ## The properties of the specification -/

/-- C1, enumeration order.  For every engine with a registered observer, `run`
returns exactly when no combination fails the extraction of the arguments, and
then the combinations it passed to the scoring function are, in this order, the
tuples `(S_0[i_0], ..., S_{k-1}[i_{k-1}])` of the nested loops with the first
position outermost, with one observer invocation per call.  The index tuples
are all the tuples with `i_j < n_j`, each once, in strictly increasing
lexicographic order (odometer order, last position fastest). -/
theorem enumeration_order {R : Type} [LinearOrder R] (e : ParameterPermutator R)
    (hlen : e._parameterRanges.length = e.arity) (hcb : e._progressCallback = true) :
    (e.run.thrown = none ↔
        ∀ pp ∈ canonicalOrder e._parameterRanges, argsMatch e.Args pp = true) ∧
      (e.run.thrown = none →
        calls e.run.trace = canonicalOrder e._parameterRanges ∧
        (observations e.run.trace).length = (calls e.run.trace).length) ∧
      (canonicalOrder e._parameterRanges).map some =
        (indexTuples (e._parameterRanges.map List.length)).map (pick e._parameterRanges) ∧
      (∀ t, t ∈ indexTuples (e._parameterRanges.map List.length) ↔
        List.Forall₂ (fun i n => i < n) t (e._parameterRanges.map List.length)) ∧
      (indexTuples (e._parameterRanges.map List.length)).Pairwise
        (List.Lex (fun i j => i < j)) := by
  refine ⟨run_thrown_iff e hlen hcb, ?_, canonicalOrder_eq_pick _, mem_indexTuples _,
    pairwise_indexTuples _⟩
  intro hnone
  have hk := (run_thrown_iff e hlen hcb).mp hnone
  rw [run_ok e hlen hcb hk]
  simp [calls_expectedTrace, length_observations_expectedTrace]

theorem enumeration_order_witness :
    smallEngine.run.thrown = none ∧
      calls smallEngine.run.trace =
        [[.bool false, .int 1], [.bool false, .int 2], [.bool true, .int 1],
          [.bool true, .int 2]] ∧
      (observations smallEngine.run.trace).length = 4 :=
  have h := enumeration_order smallEngine rfl rfl
  have hnone : smallEngine.run.thrown = none := h.1.mpr (by decide)
  ⟨hnone, (h.2.1 hnone).1.trans (by decide),
    (h.2.1 hnone).2.trans (by rw [(h.2.1 hnone).1]; decide)⟩

/-- C2, best-score tracking.  For every new engine with a registered observer,
whose score type has `lowest` as its lowest value, `run` returns exactly when
no combination fails the extraction of the arguments, and then for every `N`
from 1 to the total permutation count the observer is invoked an `N`-th time
and the best score it reads there is the maximum of the scores of the first `N`
combinations of the canonical order. -/
theorem best_score_tracking {R : Type} [LinearOrder R] (e : ParameterPermutator R)
    (hnew : e.IsNew)
    (hcb : e._progressCallback = true) (hlow : ∀ pp, e.lowest ≤ e._userFunction pp) :
    (e.run.thrown = none ↔
        ∀ pp ∈ canonicalOrder e._parameterRanges, argsMatch e.Args pp = true) ∧
      (e.run.thrown = none →
        ∀ N, 1 ≤ N → N ≤ totalPermutations e._parameterRanges →
          ∃ s, (observations e.run.trace)[N - 1]? = some s ∧
            (((canonicalOrder e._parameterRanges).take N).map e._userFunction).maximum =
              (s.getBestScore : WithBot R)) := by
  refine ⟨run_thrown_iff e hnew.1 hcb, ?_⟩
  intro hnone N h1 hN
  have hk := (run_thrown_iff e hnew.1 hcb).mp hnone
  rw [run_ok e hnew.1 hcb hk]
  simp only
  have hlt : N - 1 <
      (observations (expectedTrace e (canonicalOrder e._parameterRanges))).length := by
    rw [length_observations_expectedTrace, length_canonicalOrder]
    omega
  refine ⟨_, List.getElem?_eq_getElem hlt, ?_⟩
  exact observed_best e hnew.2.2.1 hlow _ N _ h1 (List.getElem?_eq_getElem hlt)

theorem best_score_tracking_witness :
    smallEngine.run.thrown = none ∧
      ∃ s, (observations smallEngine.run.trace)[3 - 1]? = some s ∧
        (((canonicalOrder smallEngine._parameterRanges).take 3).map
          smallEngine._userFunction).maximum = (s.getBestScore : WithBot Nat) :=
  have h := best_score_tracking smallEngine ⟨rfl, rfl, rfl, rfl⟩ rfl (fun _ => Nat.zero_le _)
  have hnone : smallEngine.run.thrown = none := h.1.mpr (by decide)
  ⟨hnone, h.2 hnone 3 (by decide) (by decide)⟩

/-- C3 as stated fails: for the new engine with an unsigned score whose scoring
function returns 0 for its one combination `(5)`, a full run with an observer
leaves the empty combination as best parameters, not the combination `(5)`,
the only one and so the earliest with the maximum score. -/
theorem first_wins_counterexample :
    zeroEngine.IsNew ∧ zeroEngine._progressCallback = true ∧
      canonicalOrder zeroEngine._parameterRanges = [[.int 5]] ∧
      zeroEngine.run.thrown = none ∧
      zeroEngine.run.self.getBestParameters = [] ∧
      zeroEngine.run.self.getBestParameters ≠ [.int 5] ∧
      ¬ IsFirstBest zeroEngine._userFunction (canonicalOrder zeroEngine._parameterRanges)
        zeroEngine.run.self.getBestParameters := by
  refine ⟨⟨rfl, rfl, rfl, rfl⟩, rfl, by decide, by decide!, by decide!, by decide!, ?_⟩
  rintro ⟨before, after, hsplit, -, -⟩
  have hmem : zeroEngine.run.self.getBestParameters ∈
      canonicalOrder zeroEngine._parameterRanges := by
    rw [hsplit]; simp
  revert hmem
  decide!

/-- C3, amended.  For every new engine with a registered observer, after a full
run in which some combination scores strictly above the lowest value of the
score type, the best parameters are the first of the combinations with the
greatest score in the canonical order: every earlier combination scores
strictly less, no later one scores more, and the best score is its score. -/
theorem first_wins {R : Type} [LinearOrder R] (e : ParameterPermutator R) (hnew : e.IsNew)
    (hcb : e._progressCallback = true) :
    (e.run.thrown = none ↔
        ∀ pp ∈ canonicalOrder e._parameterRanges, argsMatch e.Args pp = true) ∧
      (e.run.thrown = none →
        (∃ pp ∈ canonicalOrder e._parameterRanges, e.lowest < e._userFunction pp) →
        IsFirstBest e._userFunction (canonicalOrder e._parameterRanges)
            e.run.self.getBestParameters ∧
          e.run.self.getBestScore = e._userFunction e.run.self.getBestParameters) := by
  refine ⟨run_thrown_iff e hnew.1 hcb, ?_⟩
  intro hnone hgt
  have hk := (run_thrown_iff e hnew.1 hcb).mp hnone
  rw [run_ok e hnew.1 hcb hk]
  simp only [ParameterPermutator.getBestParameters, ParameterPermutator.getBestScore]
  rcases best_foldl_record (canonicalOrder e._parameterRanges) e with
    ⟨hle, _, _⟩ | ⟨hfirst, hbs, _⟩
  · obtain ⟨pp, hpp, hlt⟩ := hgt
    have := hle pp hpp
    rw [hnew.2.2.1] at this
    exact absurd hlt (not_lt.mpr this)
  · exact ⟨hfirst, hbs⟩

theorem first_wins_witness :
    smallEngine.run.thrown = none ∧
      IsFirstBest smallEngine._userFunction (canonicalOrder smallEngine._parameterRanges)
        smallEngine.run.self.getBestParameters ∧
      smallEngine.run.self.getBestScore =
        smallEngine._userFunction smallEngine.run.self.getBestParameters :=
  have h := first_wins smallEngine ⟨rfl, rfl, rfl, rfl⟩ rfl
  have hnone : smallEngine.run.thrown = none := h.1.mpr (by decide)
  ⟨hnone, h.2 hnone ⟨[.bool false, .int 1], by decide, by decide⟩⟩

/-- C4, the total permutation count.  The value `getNumberOfTotalPermutations`
returns is the product of the sizes of the candidate sets whenever that product
fits `size_t`; it is 1 for arity 0 and 0 when a candidate set is empty. -/
theorem total_permutations_product {S : Type} (e : ParameterPermutator S) :
    (totalPermutations e._parameterRanges < SIZE_MOD →
        e.getNumberOfTotalPermutations = totalPermutations e._parameterRanges) ∧
      (e._parameterRanges.length = e.arity → e.arity = 0 →
        e.getNumberOfTotalPermutations = 1) ∧
      ((∃ range ∈ e._parameterRanges, range = []) → e.getNumberOfTotalPermutations = 0) := by
  refine ⟨?_, ?_, ?_⟩
  · intro h
    rw [getNumberOfTotalPermutations_eq, Nat.mod_eq_of_lt h]
  · intro hlen h0
    rw [h0] at hlen
    have hnil : e._parameterRanges = [] := List.length_eq_zero.mp hlen
    rw [getNumberOfTotalPermutations_eq, hnil]
    decide
  · rintro ⟨range, hmem, rfl⟩
    have hz : totalPermutations e._parameterRanges = 0 := by
      unfold totalPermutations
      exact List.prod_eq_zero (List.mem_map.mpr ⟨[], hmem, rfl⟩)
    rw [getNumberOfTotalPermutations_eq, hz]
    decide

theorem total_permutations_product_witness :
    exampleEngine.getNumberOfTotalPermutations = 24 :=
  ((total_permutations_product exampleEngine).1 (by decide)).trans (by decide)

/-- C5, the evaluation count.  For every new engine with a registered observer,
after a full run `getCurrentIteration` equals `getNumberOfTotalPermutations`,
which is the product of the sizes of the candidate sets when that product fits
`size_t`. -/
theorem evaluation_count {R : Type} [LinearOrder R] (e : ParameterPermutator R)
    (hnew : e.IsNew)
    (hcb : e._progressCallback = true) :
    (e.run.thrown = none ↔
        ∀ pp ∈ canonicalOrder e._parameterRanges, argsMatch e.Args pp = true) ∧
      (e.run.thrown = none →
        e.run.self.getCurrentIteration = e.run.self.getNumberOfTotalPermutations ∧
        e.run.self.getNumberOfTotalPermutations = e.getNumberOfTotalPermutations ∧
        (totalPermutations e._parameterRanges < SIZE_MOD →
          e.run.self.getCurrentIteration = totalPermutations e._parameterRanges)) := by
  refine ⟨run_thrown_iff e hnew.1 hcb, ?_⟩
  intro hnone
  have hk := (run_thrown_iff e hnew.1 hcb).mp hnone
  rw [run_ok e hnew.1 hcb hk]
  simp only [ParameterPermutator.getCurrentIteration]
  have hcfg := sameConfig_foldl_record (canonicalOrder e._parameterRanges) e
  have hnum := getNumberOfTotalPermutations_congr _ _ hcfg
  have hprog := prog_foldl_record_eq (canonicalOrder e._parameterRanges) e hnew.2.1
  rw [length_canonicalOrder] at hprog
  refine ⟨?_, hnum, ?_⟩
  · rw [hnum, hprog, getNumberOfTotalPermutations_eq]
  · intro hfit
    rw [hprog, Nat.mod_eq_of_lt hfit]

theorem evaluation_count_witness :
    smallEngine.run.thrown = none ∧ smallEngine.run.self.getCurrentIteration = 4 :=
  have h := evaluation_count smallEngine ⟨rfl, rfl, rfl, rfl⟩ rfl
  have hnone : smallEngine.run.thrown = none := h.1.mpr (by decide)
  ⟨hnone, ((h.2 hnone).2.2 (by decide)).trans (by decide)⟩

/-- A run of an engine on which no observer was registered: the first
combination is evaluated and recorded, then the call of the empty
`std::function` throws `std::bad_function_call` and leaves `run`. -/
theorem run_no_callback {R : Type} [LinearOrder R] (e : ParameterPermutator R)
    (hlen : e._parameterRanges.length = e.arity) (hcb : e._progressCallback = false)
    (pp : ParameterPack) (rest : List ParameterPack)
    (hfirst : canonicalOrder e._parameterRanges = pp :: rest)
    (hk : argsMatch e.Args pp = true) :
    e.run = { self := e.record pp, trace := [Event.call pp],
              thrown := some .bad_function_call } := by
  rw [run_eq_sweep e hlen, hfirst]
  simp [forLoop, track, hk, hcb]

/-- C6, at the basic example: the engine of `examples/basic/basic.cpp`, on which
`setProgressCallback` is never called.  Its `run` evaluates the first
combination `(true, 1, 10, 0.5)` only and is then left by
`std::bad_function_call`: one evaluation is counted out of 24 and the best
score is 5, not 120. -/
theorem run_without_observer_throws :
    ParameterPermutator.new [.bool, .int, .float, .double] FLT_LOWEST myTrainFunc
        exampleRanges [] = .ok exampleEngine ∧
      exampleEngine.run.thrown = some .bad_function_call ∧
      calls exampleEngine.run.trace = [[.bool true, .int 1, .float 10, .double (1 / 2)]] ∧
      exampleEngine.run.self.getCurrentIteration = 1 ∧
      exampleEngine.getNumberOfTotalPermutations = 24 ∧
      exampleEngine.run.self.getBestScore = 5 ∧
      exampleEngine.run.self.getBestParameters =
        [.bool true, .int 1, .float 10, .double (1 / 2)] := by
  have hrun := run_no_callback exampleEngine rfl rfl
    [.bool true, .int 1, .float 10, .double (1 / 2)]
    (canonicalOrder exampleEngine._parameterRanges).tail rfl (by decide)
  rw [hrun]
  refine ⟨rfl, rfl, rfl, ?_, by decide, ?_, ?_⟩ <;> decide!

/-- C7, construction validation.  The first constructor throws exactly when the
number of candidate sets differs from the arity or the list of names is not
empty and its length differs from the arity; the second one exactly when the
number of pairs differs from the arity.  Otherwise the object is constructed
with its configuration stored, no observer, the count 0, the lowest score as
best score and no best parameters. -/
theorem construction_validation {R : Type} (Args : List Kind) (lowest : R)
    (userFunction : ParameterPack → R) (parameterRange : List ParameterRange)
    (parameterNames : List String) (nameRangeMap : List (String × ParameterRange)) :
    ((∃ x, ParameterPermutator.new Args lowest userFunction parameterRange parameterNames =
          .error x) ↔
        (parameterRange.length ≠ Args.length ∨
          (parameterNames ≠ [] ∧ parameterNames.length ≠ Args.length))) ∧
      (¬ (parameterRange.length ≠ Args.length ∨
          (parameterNames ≠ [] ∧ parameterNames.length ≠ Args.length)) →
        ParameterPermutator.new Args lowest userFunction parameterRange parameterNames =
          .ok { Args := Args, lowest := lowest, _userFunction := userFunction,
                _parameterRanges := parameterRange, _parameterNames := parameterNames,
                _progressCallback := false, _prog := 0, _bestScore := lowest,
                _bestParameters := [] }) ∧
      ((∃ x, ParameterPermutator.newNamed Args lowest userFunction nameRangeMap = .error x) ↔
        nameRangeMap.length ≠ Args.length) ∧
      (¬ nameRangeMap.length ≠ Args.length →
        ParameterPermutator.newNamed Args lowest userFunction nameRangeMap =
          .ok { Args := Args, lowest := lowest, _userFunction := userFunction,
                _parameterRanges := nameRangeMap.map Prod.snd,
                _parameterNames := nameRangeMap.map Prod.fst,
                _progressCallback := false, _prog := 0, _bestScore := lowest,
                _bestParameters := [] }) ∧
      (∀ e, (ParameterPermutator.new Args lowest userFunction parameterRange parameterNames =
            .ok e ∨
          ParameterPermutator.newNamed Args lowest userFunction nameRangeMap = .ok e) →
        e.IsNew ∧ e.getCurrentIteration = 0 ∧ e._progressCallback = false) := by
  have hnew : ¬ (parameterRange.length ≠ Args.length ∨
      (parameterNames ≠ [] ∧ parameterNames.length ≠ Args.length)) →
      ParameterPermutator.new Args lowest userFunction parameterRange parameterNames =
        .ok { Args := Args, lowest := lowest, _userFunction := userFunction,
              _parameterRanges := parameterRange, _parameterNames := parameterNames,
              _progressCallback := false, _prog := 0, _bestScore := lowest,
              _bestParameters := [] } := by
    intro h
    rw [not_or, not_and_or, not_not, not_not, not_not] at h
    unfold ParameterPermutator.new
    rw [if_neg (not_not.mpr h.1.symm), if_neg]
    rintro ⟨h2, h3⟩
    rcases h.2 with h4 | h4
    · exact h2 (by rw [h4]; rfl)
    · exact h3 h4
  have hnamed : ¬ nameRangeMap.length ≠ Args.length →
      ParameterPermutator.newNamed Args lowest userFunction nameRangeMap =
        .ok { Args := Args, lowest := lowest, _userFunction := userFunction,
              _parameterRanges := nameRangeMap.map Prod.snd,
              _parameterNames := nameRangeMap.map Prod.fst,
              _progressCallback := false, _prog := 0, _bestScore := lowest,
              _bestParameters := [] } := by
    intro h
    unfold ParameterPermutator.newNamed
    rw [if_neg (not_not.mpr (not_not.mp h).symm)]
  refine ⟨⟨?_, ?_⟩, hnew, ⟨?_, ?_⟩, hnamed, ?_⟩
  · rintro ⟨x, hx⟩
    by_contra hcond
    rw [hnew hcond] at hx
    cases hx
  · intro hcond
    unfold ParameterPermutator.new
    by_cases h1 : Args.length ≠ parameterRange.length
    · rw [if_pos h1]; exact ⟨_, rfl⟩
    · rw [if_neg h1, if_pos]
      · exact ⟨_, rfl⟩
      · rcases hcond with h | ⟨h2, h3⟩
        · exact absurd (not_not.mp h1).symm h
        · exact ⟨fun h0 => h2 (List.length_eq_zero.mp h0), h3⟩
  · rintro ⟨x, hx⟩
    by_contra hcond
    rw [hnamed (not_not.mpr hcond)] at hx
    cases hx
  · intro hcond
    unfold ParameterPermutator.newNamed
    rw [if_pos (fun h => hcond h.symm)]
    exact ⟨_, rfl⟩
  · intro e he
    rcases he with he | he
    · by_cases hcond : parameterRange.length ≠ Args.length ∨
          (parameterNames ≠ [] ∧ parameterNames.length ≠ Args.length)
      · exfalso
        unfold ParameterPermutator.new at he
        by_cases h1 : Args.length ≠ parameterRange.length
        · rw [if_pos h1] at he; cases he
        · rw [if_neg h1, if_pos] at he
          · cases he
          · rcases hcond with h | ⟨h2, h3⟩
            · exact absurd (not_not.mp h1).symm h
            · exact ⟨fun h0 => h2 (List.length_eq_zero.mp h0), h3⟩
      · rw [hnew hcond] at he
        cases he
        rw [not_or, not_not] at hcond
        exact ⟨⟨hcond.1, rfl, rfl, rfl⟩, rfl, rfl⟩
    · by_cases hcond : nameRangeMap.length ≠ Args.length
      · exfalso
        unfold ParameterPermutator.newNamed at he
        rw [if_pos (fun h => hcond h.symm)] at he
        cases he
      · rw [hnamed hcond] at he
        cases he
        exact ⟨⟨by simpa [ParameterPermutator.arity] using not_not.mp hcond, rfl, rfl, rfl⟩,
          rfl, rfl⟩

/-- C8 as stated fails: in the new engine with an unsigned score and the
candidate values `0` and `true` for its one `int` parameter, the second
combination is the first with a mismatch, and the first one scores 0, the
lowest value.  The run is left by `std::bad_variant_access` with one evaluation
counted, and the best parameters are the empty combination, not the
combination `(0)`, the best of the first one. -/
theorem type_mismatch_counterexample :
    lowScoreMismatchEngine.IsNew ∧ lowScoreMismatchEngine._progressCallback = true ∧
      canonicalOrder lowScoreMismatchEngine._parameterRanges = [[.int 0], [.bool true]] ∧
      argsMatch lowScoreMismatchEngine.Args [.int 0] = true ∧
      argsMatch lowScoreMismatchEngine.Args [.bool true] = false ∧
      lowScoreMismatchEngine.run.thrown = some .bad_variant_access ∧
      lowScoreMismatchEngine.run.self.getCurrentIteration = 1 ∧
      lowScoreMismatchEngine.run.self.getBestParameters = [] ∧
      lowScoreMismatchEngine.run.self.getBestParameters ≠ [.int 0] ∧
      ¬ IsFirstBest lowScoreMismatchEngine._userFunction [[.int 0]]
        lowScoreMismatchEngine.run.self.getBestParameters := by
  refine ⟨⟨rfl, rfl, rfl, rfl⟩, rfl, by decide, by decide, by decide, by decide!, by decide!,
    by decide!, by decide!, ?_⟩
  rintro ⟨before, after, hsplit, -, -⟩
  have hmem : lowScoreMismatchEngine.run.self.getBestParameters ∈
      ([[.int 0]] : List ParameterPack) := by
    rw [hsplit]; simp
  revert hmem
  decide!

/-- C8, amended.  For a new engine with a registered observer, when the
combination `bad` is the first of the canonical order that fails the
extraction of the arguments, `run` is left by `std::bad_variant_access`; the
scoring function was called for the combinations before `bad` and for nothing
else; the count is their number (as a `size_t`); and the best score and
parameters are the best over them: the first of the best of them if one of
them scored above the lowest value of the score type, and otherwise still the
lowest value with the empty combination. -/
theorem type_mismatch_aborts {R : Type} [LinearOrder R] (e : ParameterPermutator R)
    (hnew : e.IsNew) (hcb : e._progressCallback = true)
    (before : List ParameterPack) (bad : ParameterPack) (after : List ParameterPack)
    (hsplit : canonicalOrder e._parameterRanges = before ++ bad :: after)
    (hk : ∀ pp ∈ before, argsMatch e.Args pp = true) (hbad : argsMatch e.Args bad = false) :
    e.run.thrown = some .bad_variant_access ∧
      calls e.run.trace = before ∧
      (observations e.run.trace).length = before.length ∧
      e.run.self.getCurrentIteration = before.length % SIZE_MOD ∧
      (((∀ pp ∈ before, e._userFunction pp ≤ e.lowest) ∧
          e.run.self.getBestScore = e.lowest ∧ e.run.self.getBestParameters = []) ∨
        (IsFirstBest e._userFunction before e.run.self.getBestParameters ∧
          e.run.self.getBestScore = e._userFunction e.run.self.getBestParameters ∧
          e.lowest < e.run.self.getBestScore)) := by
  rw [run_mismatch e hnew.1 hcb before bad after hsplit hk hbad]
  refine ⟨rfl, calls_expectedTrace _ _, length_observations_expectedTrace _ _,
    prog_foldl_record_eq before e hnew.2.1, ?_⟩
  have hB := best_foldl_record before e
  rw [hnew.2.2.1, hnew.2.2.2] at hB
  exact hB

theorem type_mismatch_aborts_witness :
    canonicalOrder mismatchEngine._parameterRanges =
        [[.int 1], [.int 3]] ++ [.bool true] :: [[.int 7]] ∧
      mismatchEngine.run.thrown = some .bad_variant_access ∧
      calls mismatchEngine.run.trace = [[.int 1], [.int 3]] ∧
      mismatchEngine.run.self.getCurrentIteration = 2 ∧
      mismatchEngine.run.self.getBestScore = 3 ∧
      mismatchEngine.run.self.getBestParameters = [.int 3] :=
  have h := type_mismatch_aborts mismatchEngine ⟨rfl, rfl, rfl, rfl⟩ rfl
    [[.int 1], [.int 3]] [.bool true] [[.int 7]] (by decide) (by decide) (by decide)
  ⟨by decide, h.1, h.2.1, h.2.2.2.1, by decide!, by decide!⟩

/-- C9, the end-to-end scenario.  The engine of the examples over
`b ∈ {true, false}`, `i ∈ {1, 2, 3}`, `f ∈ {10, 20}`, `d ∈ {0.5, 2}` with the
score `i * f * d` if `b` and `i + f + d` otherwise, in exact arithmetic, and an
observer registered: there are 24 permutations, and after `run` the best score
is 120 at `(true, 3, 20, 2)`. -/
theorem end_to_end_scenario :
    ParameterPermutator.new [.bool, .int, .float, .double] FLT_LOWEST myTrainFunc
        exampleRanges [] = .ok exampleEngine ∧
      exampleEngine.setProgressCallback.getNumberOfTotalPermutations = 24 ∧
      exampleEngine.setProgressCallback.run.thrown = none ∧
      exampleEngine.setProgressCallback.run.self.getCurrentIteration = 24 ∧
      exampleEngine.setProgressCallback.run.self.getBestScore = 120 ∧
      exampleEngine.setProgressCallback.run.self.getBestParameters =
        [.bool true, .int 3, .float 20, .double 2] := by
  refine ⟨rfl, by decide, ?_, ?_, ?_, ?_⟩ <;> decide!

/-- C10 as stated fails: `to_string` renders the boolean `true` as `1`, so for
the names `a`, `b` and the combination `(true, 3)` the result is not the text
`{a=true, b=3, }`. -/
theorem to_string_counterexample :
    smallEngine.Args = [.bool, .int] ∧ smallEngine._parameterNames = ["a", "b"] ∧
      smallEngine.to_string [.bool true, .int 3] ≠ .ok "\x7ba=true, b=3, \x7d" :=
  ⟨rfl, rfl, fun h => absurd (Except.ok.inj h) (by decide)⟩

/-- C10, amended.  On every engine with two parameters and the names `a`, `b`,
`to_string` applied to the combination `(true, 3)` of a boolean and an integer
returns exactly the text `{a=1, b=3, }`. -/
theorem to_string_example {R : Type} (e : ParameterPermutator R) (harity : e.arity = 2)
    (hnames : e._parameterNames = ["a", "b"]) :
    e.to_string [.bool true, .int 3] = .ok "\x7ba=1, b=3, \x7d" := by
  unfold ParameterPermutator.to_string
  rw [harity]
  simp only [List.range, List.range.loop, ParameterPermutator.to_stringLoop,
    ParameterPermutator._getParameterName, hnames]
  rfl

theorem to_string_example_witness :
    smallEngine.to_string [.bool true, .int 3] = .ok "\x7ba=1, b=3, \x7d" :=
  to_string_example smallEngine rfl rfl

/-! ## The observer and the best state -/

theorem mem_canonicalOrder (ranges : List ParameterRange) (pp : ParameterPack) :
    pp ∈ canonicalOrder ranges ↔ List.Forall₂ (fun v range => v ∈ range) pp ranges := by
  induction ranges generalizing pp with
  | nil => simp [canonicalOrder]
  | cons range rest ih =>
    simp only [canonicalOrder, List.mem_flatMap, List.mem_map]
    constructor
    · rintro ⟨v, hv, q, hq, rfl⟩
      exact List.Forall₂.cons hv ((ih q).mp hq)
    · intro h
      cases h with
      | cons hv hrest => exact ⟨_, hv, _, (ih _).mpr hrest, rfl⟩

/-- With a registered observer, `run` evaluates and observes a beginning of the
canonical order, whether it returns or is left by a mismatch. -/
theorem run_evaluated {R : Type} [LinearOrder R] (e : ParameterPermutator R)
    (hlen : e._parameterRanges.length = e.arity) (hcb : e._progressCallback = true) :
    ∃ evaluated rest, canonicalOrder e._parameterRanges = evaluated ++ rest ∧
      (∀ pp ∈ evaluated, argsMatch e.Args pp = true) ∧
      (e.run.thrown = none → rest = []) ∧
      e.run.self = evaluated.foldl ParameterPermutator.record e ∧
      e.run.trace = expectedTrace e evaluated := by
  by_cases hk : ∀ pp ∈ canonicalOrder e._parameterRanges, argsMatch e.Args pp = true
  · refine ⟨canonicalOrder e._parameterRanges, [], by simp, hk, fun _ => rfl, ?_, ?_⟩ <;>
      rw [run_ok e hlen hcb hk]
  · obtain ⟨before, bad, after, hsplit, hbefore, hbad⟩ :=
      exists_first_mismatch (argsMatch e.Args) _ hk
    have hrun := run_mismatch e hlen hcb before bad after hsplit hbefore hbad
    refine ⟨before, bad :: after, hsplit, hbefore, ?_, ?_, ?_⟩
    · intro hnone
      rw [hrun] at hnone
      cases hnone
    · rw [hrun]
    · rw [hrun]

theorem expectedTrace_eq_zip {R : Type} [LinearOrder R] (l : List ParameterPack)
    (e : ParameterPermutator R) :
    expectedTrace e l =
      (List.zip l (observations (expectedTrace e l))).flatMap
        (fun p => [Event.call p.1, Event.progress p.2]) := by
  induction l generalizing e with
  | nil => rfl
  | cons pp l ih =>
    simp only [expectedTrace, observations, List.zip_cons_cons, List.flatMap_cons,
      List.cons_append, List.nil_append]
    rw [← ih]

/-- C14, the observer protocol.  For every new engine with a registered
observer, in a run that returns the effects are, for each combination of the
canonical order in turn, the call of the scoring function followed by one
invocation of the observer; the observer reads at its `k`-th invocation the
state after the update for the `k`-th combination, and there the count is `k`
(as a `size_t`), so the counts go up by one from 1 to the total. -/
theorem observer_protocol {R : Type} [LinearOrder R] (e : ParameterPermutator R)
    (hnew : e.IsNew) (hcb : e._progressCallback = true) :
    (e.run.thrown = none ↔
        ∀ pp ∈ canonicalOrder e._parameterRanges, argsMatch e.Args pp = true) ∧
      (e.run.thrown = none →
        (observations e.run.trace).length = totalPermutations e._parameterRanges ∧
        e.run.trace =
          (List.zip (canonicalOrder e._parameterRanges) (observations e.run.trace)).flatMap
            (fun p => [Event.call p.1, Event.progress p.2]) ∧
        ∀ k, 1 ≤ k → k ≤ totalPermutations e._parameterRanges →
          ∃ s, (observations e.run.trace)[k - 1]? = some s ∧
            s = (((canonicalOrder e._parameterRanges).take k).foldl
              ParameterPermutator.record e).snapshot ∧
            s.getCurrentIteration = k % SIZE_MOD ∧
            (totalPermutations e._parameterRanges < SIZE_MOD → s.getCurrentIteration = k)) := by
  refine ⟨run_thrown_iff e hnew.1 hcb, ?_⟩
  intro hnone
  have hk := (run_thrown_iff e hnew.1 hcb).mp hnone
  rw [run_ok e hnew.1 hcb hk]
  simp only
  refine ⟨by rw [length_observations_expectedTrace, length_canonicalOrder],
    expectedTrace_eq_zip _ _, ?_⟩
  intro k h1 hk2
  have hlt : k - 1 < (canonicalOrder e._parameterRanges).length := by
    rw [length_canonicalOrder]; omega
  have hobs := getElem?_observations_expectedTrace (canonicalOrder e._parameterRanges) e
    (k - 1) hlt
  rw [Nat.sub_add_cancel h1] at hobs
  have hcount : (((canonicalOrder e._parameterRanges).take k).foldl
      ParameterPermutator.record e).snapshot.getCurrentIteration = k % SIZE_MOD := by
    have hp := prog_foldl_record_eq ((canonicalOrder e._parameterRanges).take k) e hnew.2.1
    rw [List.length_take, length_canonicalOrder, Nat.min_eq_left hk2] at hp
    exact hp
  refine ⟨_, hobs, rfl, hcount, ?_⟩
  intro hfit
  rw [hcount]
  exact Nat.mod_eq_of_lt (by omega)

theorem observer_protocol_witness :
    smallEngine.run.thrown = none ∧
      (observations smallEngine.run.trace).length = 4 ∧
      ∃ s, (observations smallEngine.run.trace)[3 - 1]? = some s ∧ s.getCurrentIteration = 3 :=
  have h := observer_protocol smallEngine ⟨rfl, rfl, rfl, rfl⟩ rfl
  have hnone : smallEngine.run.thrown = none := h.1.mpr (by decide)
  have h3 := (h.2 hnone).2.2 3 (by decide) (by decide)
  ⟨hnone, (h.2 hnone).1.trans (by decide),
    h3.choose, h3.choose_spec.1, h3.choose_spec.2.2.2 (by decide)⟩

/-- The best state of a new engine after the evaluation of a list of
combinations of the canonical order is consistent with that list. -/
theorem bestConsistent_foldl {R : Type} [LinearOrder R] (e : ParameterPermutator R)
    (hnew : e.IsNew) (l : List ParameterPack)
    (hl : ∀ pp ∈ l, pp ∈ canonicalOrder e._parameterRanges) :
    BestConsistent e l (l.foldl ParameterPermutator.record e)._bestScore
      (l.foldl ParameterPermutator.record e)._bestParameters := by
  have hB := best_foldl_record l e
  rw [hnew.2.2.1, hnew.2.2.2] at hB
  generalize l.foldl ParameterPermutator.record e = e2 at hB ⊢
  rcases hB with ⟨hle, _, hbp⟩ | ⟨⟨before, after, hsplit, _, _⟩, hbs, hlt⟩
  · refine ⟨Or.inl hbp, fun _ => ⟨fun _ pp hpp => not_lt.mpr (hle pp hpp), fun _ => hbp⟩⟩
  · have hmem : e2._bestParameters ∈ canonicalOrder e._parameterRanges :=
      hl _ (by rw [hsplit]; simp)
    have hfa := (mem_canonicalOrder _ _).mp hmem
    have hlength : e2._bestParameters.length = e.arity := by
      rw [hfa.length_eq, hnew.1]
    refine ⟨Or.inr ⟨hlength, hfa, hbs.symm⟩, fun hpos => ⟨?_, ?_⟩⟩
    · intro hnil
      rw [hnil] at hlength
      simp at hlength
      omega
    · intro hnone
      exact absurd (hbs ▸ hlt) (hnone _ (by rw [hsplit]; simp))

/-- C17 as stated fails: for the new engine whose scoring function has no
parameter and returns 7, the one combination is the empty one; it scores above
the lowest value 0 and becomes the best, so after the run the best parameters
are empty although an evaluated combination scored strictly above the initial
best score. -/
theorem best_state_counterexample :
    nullaryEngine.IsNew ∧ nullaryEngine._progressCallback = true ∧
      nullaryEngine.run.thrown = none ∧
      calls nullaryEngine.run.trace = [[]] ∧
      nullaryEngine.lowest < nullaryEngine._userFunction [] ∧
      nullaryEngine.run.self.getBestScore = 7 ∧
      nullaryEngine.run.self.getBestParameters = [] ∧
      ¬ (nullaryEngine.run.self.getBestParameters = [] ↔
          ∀ pp ∈ calls nullaryEngine.run.trace,
            ¬ nullaryEngine.lowest < nullaryEngine._userFunction pp) := by
  refine ⟨⟨rfl, rfl, rfl, rfl⟩, rfl, by decide!, by decide!, by decide, by decide!,
    by decide!, ?_⟩
  decide!

/-- C17, amended.  Let `hist` be the combinations an engine has evaluated in
earlier runs since its construction (none for a new engine), an observer being
registered.  At every invocation of the observer during the next `run` and
after it, whether it returns or is left by a mismatch, the best parameters are
empty or a combination of length arity whose values are elements of their
candidate sets and whose score is the best score; for a scoring function with
at least one parameter they are empty exactly when no combination evaluated so
far scored strictly above the lowest value.  The state after the run is again
the state after the evaluations so far. -/
theorem best_state_consistent {R : Type} [LinearOrder R] (e0 : ParameterPermutator R)
    (hnew : e0.IsNew) (hcb : e0._progressCallback = true) (hist : List ParameterPack)
    (hhist : ∀ pp ∈ hist, pp ∈ canonicalOrder e0._parameterRanges) :
    (∀ n s, (observations (hist.foldl ParameterPermutator.record e0).run.trace)[n]? = some s →
        BestConsistent e0
          (hist ++ (calls (hist.foldl ParameterPermutator.record e0).run.trace).take (n + 1))
          s.getBestScore s.getBestParameters) ∧
      BestConsistent e0 (hist ++ calls (hist.foldl ParameterPermutator.record e0).run.trace)
        (hist.foldl ParameterPermutator.record e0).run.self.getBestScore
        (hist.foldl ParameterPermutator.record e0).run.self.getBestParameters ∧
      (hist.foldl ParameterPermutator.record e0).run.self =
        (hist ++ calls (hist.foldl ParameterPermutator.record e0).run.trace).foldl
          ParameterPermutator.record e0 ∧
      (∀ pp ∈ calls (hist.foldl ParameterPermutator.record e0).run.trace,
        pp ∈ canonicalOrder e0._parameterRanges) := by
  have hcfg := sameConfig_foldl_record hist e0
  have hfold : ∀ l : List ParameterPack,
      l.foldl ParameterPermutator.record (hist.foldl ParameterPermutator.record e0) =
        (hist ++ l).foldl ParameterPermutator.record e0 :=
    fun l => (List.foldl_append _ _ _ _).symm
  generalize hist.foldl ParameterPermutator.record e0 = e at hcfg hfold ⊢
  obtain ⟨hArgs, _, _, hranges, _, hcallback⟩ := hcfg
  have hlen : e._parameterRanges.length = e.arity := by
    unfold ParameterPermutator.arity
    rw [hranges, hArgs]
    exact hnew.1
  obtain ⟨evaluated, rest, hsplit, _, _, hself, htrace⟩ :=
    run_evaluated e hlen (hcallback.trans hcb)
  rw [hranges] at hsplit
  have hsub : ∀ pp ∈ evaluated, pp ∈ canonicalOrder e0._parameterRanges := by
    intro pp hpp
    rw [hsplit]
    exact List.mem_append_left _ hpp
  have hall : ∀ l : List ParameterPack, (∀ pp ∈ l, pp ∈ evaluated) →
      ∀ pp ∈ hist ++ l, pp ∈ canonicalOrder e0._parameterRanges := by
    intro l hl pp hpp
    rcases List.mem_append.mp hpp with hm | hm
    · exact hhist pp hm
    · exact hsub pp (hl pp hm)
  rw [hself, htrace, calls_expectedTrace, hfold]
  refine ⟨?_, bestConsistent_foldl e0 hnew _ (hall evaluated (fun _ h => h)), rfl, hsub⟩
  intro n s hs
  have hlt : n < evaluated.length := by
    have := (List.getElem?_eq_some_iff.mp hs).1
    rwa [length_observations_expectedTrace] at this
  rw [getElem?_observations_expectedTrace evaluated e n hlt, hfold] at hs
  rw [← Option.some.inj hs]
  exact bestConsistent_foldl e0 hnew _
    (hall (evaluated.take (n + 1)) (fun _ h => List.mem_of_mem_take h))

theorem best_state_consistent_witness :
    BestConsistent smallEngine ([] ++ calls smallEngine.run.trace)
      smallEngine.run.self.getBestScore smallEngine.run.self.getBestParameters :=
  (best_state_consistent smallEngine ⟨rfl, rfl, rfl, rfl⟩ rfl []
    (fun _ h => absurd h (List.not_mem_nil _))).2.1

/-- C18, the minimum score is never recorded.  For every new engine with a
registered observer whose combinations all score exactly the lowest value of
the score type, after a full run the best score is still the lowest value and
the best parameters are still the empty combination, while the count equals
the total permutation count. -/
theorem minimum_score_not_recorded {R : Type} [LinearOrder R] (e : ParameterPermutator R)
    (hnew : e.IsNew) (hcb : e._progressCallback = true)
    (hmin : ∀ pp ∈ canonicalOrder e._parameterRanges, e._userFunction pp = e.lowest) :
    (e.run.thrown = none ↔
        ∀ pp ∈ canonicalOrder e._parameterRanges, argsMatch e.Args pp = true) ∧
      (e.run.thrown = none →
        e.run.self.getBestScore = e.lowest ∧
        e.run.self.getBestParameters = [] ∧
        e.run.self.getCurrentIteration = e.getNumberOfTotalPermutations ∧
        (totalPermutations e._parameterRanges < SIZE_MOD →
          e.run.self.getCurrentIteration = totalPermutations e._parameterRanges)) := by
  refine ⟨run_thrown_iff e hnew.1 hcb, ?_⟩
  intro hnone
  have hk := (run_thrown_iff e hnew.1 hcb).mp hnone
  rw [run_ok e hnew.1 hcb hk]
  simp only [ParameterPermutator.getCurrentIteration, ParameterPermutator.getBestScore,
    ParameterPermutator.getBestParameters]
  have hprog := prog_foldl_record_eq (canonicalOrder e._parameterRanges) e hnew.2.1
  rw [length_canonicalOrder] at hprog
  have hB := best_foldl_record (canonicalOrder e._parameterRanges) e
  rw [hnew.2.2.1, hnew.2.2.2] at hB
  generalize (canonicalOrder e._parameterRanges).foldl ParameterPermutator.record e = e2
    at hB hprog ⊢
  have hbest : e2._bestScore = e.lowest ∧ e2._bestParameters = [] := by
    rcases hB with ⟨_, hbs, hbp⟩ | ⟨⟨before, after, hsplit, _, _⟩, hbs, hlt⟩
    · exact ⟨hbs, hbp⟩
    · have hm := hmin e2._bestParameters (by rw [hsplit]; simp)
      rw [hbs, hm] at hlt
      exact absurd hlt (lt_irrefl _)
  refine ⟨hbest.1, hbest.2, ?_, ?_⟩
  · rw [hprog, getNumberOfTotalPermutations_eq]
  · intro hfit
    rw [hprog, Nat.mod_eq_of_lt hfit]

theorem minimum_score_not_recorded_witness :
    zeroEngine.run.thrown = none ∧ zeroEngine.run.self.getBestScore = 0 ∧
      zeroEngine.run.self.getBestParameters = [] ∧
      zeroEngine.run.self.getCurrentIteration = 1 :=
  have h := minimum_score_not_recorded zeroEngine ⟨rfl, rfl, rfl, rfl⟩ rfl (by decide)
  have hnone : zeroEngine.run.thrown = none := h.1.mpr (by decide)
  ⟨hnone, (h.2 hnone).1, (h.2 hnone).2.1, ((h.2 hnone).2.2.2 (by decide)).trans (by decide)⟩

/-- No evaluated combination scores above the best score. -/
theorem le_best_foldl_record {R : Type} [LinearOrder R] (l : List ParameterPack)
    (e : ParameterPermutator R) :
    ∀ pp ∈ l, e._userFunction pp ≤ (l.foldl ParameterPermutator.record e)._bestScore := by
  have hB := best_foldl_record l e
  generalize l.foldl ParameterPermutator.record e = e2 at hB ⊢
  intro pp hpp
  rcases hB with ⟨hle, hbs, _⟩ | ⟨⟨before, after, hsplit, hb1, hb2⟩, hbs, _⟩
  · rw [hbs]; exact hle pp hpp
  · rw [hbs]
    rw [hsplit] at hpp
    rcases List.mem_append.mp hpp with hm | hm
    · exact le_of_lt (hb1 pp hm)
    · rcases List.mem_cons.mp hm with heq | hm2
      · rw [heq]
      · exact hb2 pp hm2

/-- C19, re-running.  For every new engine with a registered observer whose
first run returns, a second `run` returns as well and leaves the best score and
the best parameters as the first run left them, and the count is not reset:
after the second run it is twice the total permutation count (as a
`size_t`). -/
theorem rerun_keeps_best {R : Type} [LinearOrder R] (e : ParameterPermutator R)
    (hnew : e.IsNew) (hcb : e._progressCallback = true) :
    (e.run.thrown = none ↔
        ∀ pp ∈ canonicalOrder e._parameterRanges, argsMatch e.Args pp = true) ∧
      (e.run.thrown = none →
        e.run.self.run.thrown = none ∧
        e.run.self.run.self.getBestScore = e.run.self.getBestScore ∧
        e.run.self.run.self.getBestParameters = e.run.self.getBestParameters ∧
        e.run.self.run.self.getCurrentIteration =
          (2 * totalPermutations e._parameterRanges) % SIZE_MOD ∧
        (2 * totalPermutations e._parameterRanges < SIZE_MOD →
          e.run.self.run.self.getCurrentIteration =
            2 * totalPermutations e._parameterRanges)) := by
  refine ⟨run_thrown_iff e hnew.1 hcb, ?_⟩
  intro hnone
  have hk := (run_thrown_iff e hnew.1 hcb).mp hnone
  have hrun1 := run_ok e hnew.1 hcb hk
  have hcfg := sameConfig_foldl_record (canonicalOrder e._parameterRanges) e
  have hle := le_best_foldl_record (canonicalOrder e._parameterRanges) e
  have hprog1 := prog_foldl_record_eq (canonicalOrder e._parameterRanges) e hnew.2.1
  rw [length_canonicalOrder] at hprog1
  rw [hrun1]
  simp only
  generalize (canonicalOrder e._parameterRanges).foldl ParameterPermutator.record e = e1
    at hcfg hle hprog1 ⊢
  obtain ⟨hArgs, _, hf, hranges, _, hcallback⟩ := hcfg
  have hlen1 : e1._parameterRanges.length = e1.arity := by
    unfold ParameterPermutator.arity
    rw [hranges, hArgs]
    exact hnew.1
  have hk1 : ∀ pp ∈ canonicalOrder e1._parameterRanges, argsMatch e1.Args pp = true := by
    rw [hranges, hArgs]; exact hk
  rw [run_ok e1 hlen1 (hcallback.trans hcb) hk1]
  simp only [ParameterPermutator.getCurrentIteration, ParameterPermutator.getBestScore,
    ParameterPermutator.getBestParameters]
  rw [hranges]
  have hcount : ((canonicalOrder e._parameterRanges).foldl ParameterPermutator.record e1)._prog =
      (2 * totalPermutations e._parameterRanges) % SIZE_MOD := by
    have h2 := prog_foldl_record (canonicalOrder e._parameterRanges) e1
    have hlt := prog_foldl_record_lt (canonicalOrder e._parameterRanges) e1
      (by rw [hprog1]; exact Nat.mod_lt _ (by decide))
    rw [length_canonicalOrder, hprog1, Nat.mod_add_mod, Nat.mod_eq_of_lt hlt] at h2
    rw [h2]
    congr 1
    omega
  have hB := best_foldl_record (canonicalOrder e._parameterRanges) e1
  rw [hf] at hB
  generalize (canonicalOrder e._parameterRanges).foldl ParameterPermutator.record e1 = e2
    at hB hcount ⊢
  have hbest : e2._bestScore = e1._bestScore ∧ e2._bestParameters = e1._bestParameters := by
    rcases hB with ⟨_, hbs, hbp⟩ | ⟨⟨before, after, hsplit, _, _⟩, hbs, hlt⟩
    · exact ⟨hbs, hbp⟩
    · have hm := hle e2._bestParameters (by rw [hsplit]; simp)
      rw [hbs] at hlt
      exact absurd hlt (not_lt.mpr hm)
  refine ⟨trivial, hbest.1, hbest.2, hcount, ?_⟩
  intro hfit
  rw [hcount, Nat.mod_eq_of_lt hfit]

theorem rerun_keeps_best_witness :
    smallEngine.run.thrown = none ∧
      smallEngine.run.self.run.self.getBestScore = smallEngine.run.self.getBestScore ∧
      smallEngine.run.self.run.self.getBestParameters =
        smallEngine.run.self.getBestParameters ∧
      smallEngine.run.self.run.self.getCurrentIteration = 8 :=
  have h := rerun_keeps_best smallEngine ⟨rfl, rfl, rfl, rfl⟩ rfl
  have hnone : smallEngine.run.thrown = none := h.1.mpr (by decide)
  ⟨hnone, (h.2 hnone).2.1, (h.2 hnone).2.2.1,
    ((h.2 hnone).2.2.2.2 (by decide)).trans (by decide)⟩

/-! ## Formatting -/

theorem String.join_cons_eq (a : String) (l : List String) :
    String.join (a :: l) = a ++ String.join l := by
  rw [String.join_eq, String.join_eq]
  apply String.ext
  simp [String.data_append]

theorem getParameterName_eq {R : Type} (e : ParameterPermutator R) (i : Nat)
    (hnames : e._parameterNames = [] ∨ i < e._parameterNames.length) :
    e._getParameterName i = .ok (resolvedName e._parameterNames i) := by
  unfold ParameterPermutator._getParameterName resolvedName
  rcases hnames with hnil | hlt
  · simp [hnil]
  · have hne : e._parameterNames.length ≠ 0 := by omega
    rw [if_neg hne, List.getElem?_eq_getElem hlt]
    simp only
    by_cases hempty : e._parameterNames[i] = ""
    · simp [hempty]
    · have hlen : e._parameterNames[i].length ≠ 0 := by
        intro h
        apply hempty
        apply String.ext
        exact List.length_eq_zero.mp h
      simp [hempty, hlen]

theorem to_stringLoop_eq {R : Type} (e : ParameterPermutator R) (pp : ParameterPack)
    (hnames : e._parameterNames = [] ∨ pp.length ≤ e._parameterNames.length)
    (hint : ∀ v ∈ pp, v.kind = .int ∨ v.kind = .uint) :
    ∀ (vs : List Variant) (k : Nat) (ret : String), pp.drop k = vs →
      e.to_stringLoop pp (List.range' k vs.length) ret =
        .ok (ret ++ String.join ((vs.enumFrom k).map
          (fun p => resolvedName e._parameterNames p.1 ++ "=" ++ decimalText p.2 ++ ", "))) := by
  intro vs
  induction vs with
  | nil =>
    intro k ret _
    simp [ParameterPermutator.to_stringLoop, String.join]
  | cons v vs ih =>
    intro k ret hdrop
    have hk : k < pp.length := by
      by_contra hge
      rw [List.drop_eq_nil_of_le (by omega)] at hdrop
      cases hdrop
    have hget : pp[k]? = some v := by
      rw [List.getElem?_eq_getElem hk]
      have := List.drop_eq_getElem_cons hk
      rw [hdrop] at this
      exact congrArg some (List.cons.inj this).1.symm
    have hrest : pp.drop (k + 1) = vs := by
      have := List.drop_eq_getElem_cons hk
      rw [hdrop] at this
      exact (List.cons.inj this).2.symm
    have hname := getParameterName_eq e k (hnames.imp id (fun h => by omega))
    have hv : v.to_string = decimalText v := by
      have hmem : v ∈ pp := List.getElem?_mem hget
      rcases hint v hmem with h | h <;> cases v <;> simp_all [Variant.kind] <;> rfl
    rw [List.length_cons, List.range'_succ]
    simp only [ParameterPermutator.to_stringLoop, hname, hget]
    rw [ih (k + 1) _ hrest, List.enumFrom_cons, List.map_cons, String.join_cons_eq, hv]
    simp only [String.append_assoc]

/-- C15, the format of `to_string`.  For every engine whose list of names is
empty or has one name per parameter, and every combination of length arity
whose values are integers, signed or unsigned, `to_string` returns an opening
brace, then for each position in order the resolved name, `=`, the decimal
text of the value and `, `, then a closing brace; the resolved name is the name
supplied for the position if it is not empty and `P<index>` otherwise. -/
theorem to_string_format {R : Type} (e : ParameterPermutator R) (pp : ParameterPack)
    (hnames : e._parameterNames = [] ∨ e._parameterNames.length = e.arity)
    (hlen : pp.length = e.arity)
    (hint : ∀ v ∈ pp, v.kind = .int ∨ v.kind = .uint) :
    e.to_string pp =
        .ok ("\x7b" ++ String.join (pp.enum.map
          (fun p => resolvedName e._parameterNames p.1 ++ "=" ++ decimalText p.2 ++ ", "))
          ++ "\x7d") ∧
      (∀ i, resolvedName e._parameterNames i =
        if e._parameterNames = [] then "P" ++ toString i
        else if e._parameterNames[i]? = some "" ∨ e._parameterNames[i]? = none
          then "P" ++ toString i
        else (e._parameterNames[i]?).getD "") := by
  constructor
  · unfold ParameterPermutator.to_string
    have h := to_stringLoop_eq e pp (hnames.imp id (fun h => by omega)) hint pp 0 "\x7b" rfl
    rw [← List.range_eq_range', hlen] at h
    rw [h]
    rfl
  · intro i
    unfold resolvedName
    by_cases hnil : e._parameterNames = []
    · simp [hnil]
    · rw [if_neg hnil]
      cases hget : e._parameterNames[i]? with
      | none => simp
      | some name =>
        by_cases hempty : name = ""
        · simp [hempty]
        · simp [hempty]

theorem to_string_format_witness :
    namedEngine.to_string [.int 2, .uint 7, .int (-3)] =
      .ok "\x7balpha=2, P1=7, gamma=-3, \x7d" :=
  (to_string_format namedEngine [.int 2, .uint 7, .int (-3)] (Or.inr rfl) rfl
    (by decide)).1.trans (by rfl)

theorem getReportLoop_eq {R : Type} (e : ParameterPermutator R)
    (hnames : e._parameterNames = [] ∨
      e._parameterRanges.length ≤ e._parameterNames.length) :
    ∀ (rs : List ParameterRange) (k : Nat) (s : String), e._parameterRanges.drop k = rs →
      e.getReportLoop (List.range' k rs.length) s =
        .ok (s ++ String.join ((rs.enumFrom k).map
          (fun p => "\n" ++ resolvedName e._parameterNames p.1 ++ ": n=" ++
            toString p.2.length))) := by
  intro rs
  induction rs with
  | nil =>
    intro k s _
    simp [ParameterPermutator.getReportLoop, String.join]
  | cons range rs ih =>
    intro k s hdrop
    have hk : k < e._parameterRanges.length := by
      by_contra hge
      rw [List.drop_eq_nil_of_le (by omega)] at hdrop
      cases hdrop
    have hget : e._parameterRanges[k]? = some range := by
      rw [List.getElem?_eq_getElem hk]
      have := List.drop_eq_getElem_cons hk
      rw [hdrop] at this
      exact congrArg some (List.cons.inj this).1.symm
    have hrest : e._parameterRanges.drop (k + 1) = rs := by
      have := List.drop_eq_getElem_cons hk
      rw [hdrop] at this
      exact (List.cons.inj this).2.symm
    have hname := getParameterName_eq e k (hnames.imp id (fun h => by omega))
    rw [List.length_cons, List.range'_succ]
    simp only [ParameterPermutator.getReportLoop, hname, hget]
    rw [ih (k + 1) _ hrest, List.enumFrom_cons, List.map_cons, String.join_cons_eq]
    simp only [String.append_assoc]

/-- C16, the report.  For every engine with one candidate set per parameter
whose list of names is empty or has one name per parameter, `getReport`
returns the header, then for each position in order a line with the resolved
name and the size of the candidate set, then the separator line, then the line
with the total permutation count.  It is a function of the object that yields
a text only: the count, the best score and the best parameters are what they
were. -/
theorem report_format {R : Type} (e : ParameterPermutator R)
    (hlen : e._parameterRanges.length = e.arity)
    (hnames : e._parameterNames = [] ∨ e._parameterNames.length = e.arity) :
    e.getReport =
      .ok ("[ParameterPermutator report]" ++
        String.join (e._parameterRanges.enum.map
          (fun p => "\n" ++ resolvedName e._parameterNames p.1 ++ ": n=" ++
            toString p.2.length)) ++
        "\n-----------------------------" ++
        ("\nTotal number of permutations: " ++ toString e.getNumberOfTotalPermutations)) := by
  unfold ParameterPermutator.getReport
  have h := getReportLoop_eq e (hnames.imp id (fun h => by omega)) e._parameterRanges 0
    "[ParameterPermutator report]" rfl
  rw [← List.range_eq_range', hlen] at h
  rw [h]
  rfl

theorem report_format_witness :
    namedEngine.getReport =
      .ok ("[ParameterPermutator report]\nalpha: n=2\nP1: n=1\ngamma: n=3" ++
        "\n-----------------------------\nTotal number of permutations: 6") :=
  (report_format namedEngine rfl (Or.inr rfl)).trans (by rfl)

/-! ## The range generators -/

/-- C11, at the example of the claim: `linspace_n<int>(0, 2, 5)` computes
0, 0.5, 1, 1.5, 2 and returns the five values 0, 0, 1, 1, 2: the duplicates
are found and kept, the result is as long as the count. -/
theorem linspace_n_keeps_duplicates :
    linspace_calc .int 0 2 5 true =
        [.finite 0, .finite (1 / 2), .finite 1, .finite (3 / 2), .finite 2] ∧
      linspace_n .int 0 2 5 true = .ok [.int 0, .int 0, .int 1, .int 1, .int 2] ∧
      ¬ ([.int 0, .int 0, .int 1, .int 1, .int 2] : List Variant).Nodup := by
  refine ⟨by decide!, by decide!, by decide⟩

theorem linspace_convert_float (l : List ℚ) (ret : List Variant) :
    linspace_convert .float (l.map FloatValue.finite) ret = .ok (ret ++ l.map Variant.float) := by
  induction l generalizing ret with
  | nil => simp [linspace_convert]
  | cons q l ih =>
    simp only [List.map_cons, linspace_convert, castTo]
    rw [ih]
    simp

theorem linspace_convert_double (l : List ℚ) (ret : List Variant) :
    linspace_convert .double (l.map FloatValue.finite) ret =
      .ok (ret ++ l.map Variant.double) := by
  induction l generalizing ret with
  | nil => simp [linspace_convert]
  | cons q l ih =>
    simp only [List.map_cons, linspace_convert, castTo]
    rw [ih]
    simp


theorem pred_size (n : Nat) (h2 : 2 ≤ n) (hn : n < SIZE_MOD) :
    (n + SIZE_MOD - 1) % SIZE_MOD = n - 1 := by
  have h : n + SIZE_MOD - 1 = (n - 1) + SIZE_MOD := by omega
  rw [h, Nat.add_mod_right, Nat.mod_eq_of_lt (by omega)]

theorem linspace_calc_eq (T : Kind) (hT : T ≠ .uint) (start stop : ℚ) (n : Nat)
    (endpoint : Bool) (h2 : 2 ≤ n) (hn : n < SIZE_MOD) :
    linspace_calc T start stop n endpoint =
      (evenlySpaced start stop n endpoint).map FloatValue.finite := by
  have hdiff : differenceIn T start stop = stop - start := by
    cases T <;> first | rfl | exact absurd rfl hT
  have hpred := pred_size n h2 hn
  have hcast : (((n - 1 : Nat) : ℚ)) = (n : ℚ) - 1 := by
    rw [Nat.cast_sub (by omega)]; simp
  have hne1 : ((n : ℚ) - 1) ≠ 0 := by
    have : (2 : ℚ) ≤ (n : ℚ) := by exact_mod_cast h2
    intro h; linarith
  have hne : ((n : ℚ)) ≠ 0 := by
    have : (2 : ℚ) ≤ (n : ℚ) := by exact_mod_cast h2
    intro h; linarith
  unfold linspace_calc evenlySpaced
  rw [List.map_map, hpred, hcast, hdiff]
  apply List.map_congr_left
  intro k _
  cases endpoint
  · simp only [Bool.false_eq_true, if_false, FloatValue.div, if_neg hne, FloatValue.mul,
      FloatValue.add, Function.comp]
  · simp only [if_true, FloatValue.div, if_neg hne1, FloatValue.mul,
      FloatValue.add, Function.comp]

/-- C12, the values of `linspace_n`.  For every count from 2 on (a `size_t`)
and an exact output kind, `float` or `double`, `linspace_n` returns the values
`start + k * step` for `k = 0, ..., count - 1`, where the step is
`(end - start) / (count - 1)` with the end point and `(end - start) / count`
without it: exactly count values, the first one `start`, and with the end
point the last one `end`. -/
theorem linspace_n_formula (start stop : ℚ) (n : Nat) (endpoint : Bool) (h2 : 2 ≤ n)
    (hn : n < SIZE_MOD) :
    linspace_n .float start stop n endpoint =
        .ok ((evenlySpaced start stop n endpoint).map Variant.float) ∧
      linspace_n .double start stop n endpoint =
        .ok ((evenlySpaced start stop n endpoint).map Variant.double) ∧
      (evenlySpaced start stop n endpoint).length = n ∧
      (evenlySpaced start stop n endpoint)[0]? = some start ∧
      (endpoint = true → (evenlySpaced start stop n endpoint)[n - 1]? = some stop) := by
  refine ⟨?_, ?_, ?_, ?_, ?_⟩
  · unfold linspace_n
    rw [linspace_calc_eq .float (by decide) start stop n endpoint h2 hn,
      linspace_convert_float]
    rfl
  · unfold linspace_n
    rw [linspace_calc_eq .double (by decide) start stop n endpoint h2 hn,
      linspace_convert_double]
    rfl
  · simp [evenlySpaced]
  · unfold evenlySpaced
    rw [List.getElem?_map, List.getElem?_range (by omega)]
    simp
  · intro hend
    have hne1 : ((n : ℚ) - 1) ≠ 0 := by
      have : (2 : ℚ) ≤ (n : ℚ) := by exact_mod_cast h2
      intro h; linarith
    have hcast : (((n - 1 : Nat) : ℚ)) = (n : ℚ) - 1 := by
      rw [Nat.cast_sub (by omega)]; simp
    unfold evenlySpaced
    rw [List.getElem?_map, List.getElem?_range (by omega)]
    simp only [Option.map_some', hend, if_true, hcast]
    congr 1
    field_simp

theorem linspace_n_formula_witness :
    linspace_n .float 0 10 5 true =
      .ok [.float 0, .float (5 / 2), .float 5, .float (15 / 2), .float 10] :=
  (linspace_n_formula 0 10 5 true (by decide) (by decide)).1.trans (by decide!)

/-- C13, at the example of the claim: `linspace_step<float>(0, 10, 3)` derives
the count 4 and returns the four values 0, 10/3, 20/3, 10, spaced by
`(end - start) / (count - 1)`, not the values 0, 3, 6, 9 spaced by the step.
When the step divides the range, as for `linspace_step<float>(0, 9, 3)`, the
spacing is the step. -/
theorem linspace_step_spacing :
    linspace_step .float 0 10 3 true =
        .ok [.float 0, .float (10 / 3), .float (20 / 3), .float 10] ∧
      linspace_step .float 0 10 3 true ≠ .ok [.float 0, .float 3, .float 6, .float 9] ∧
      linspace_step .float 0 9 3 true = .ok [.float 0, .float 3, .float 6, .float 9] := by
  refine ⟨by decide!, by decide!, by decide!⟩

/-- With the count 1 and the end point included the step is `range / 0`, and
the one value computed is `start + 0 * step`, which is no number. -/
theorem linspace_calc_one (T : Kind) (start stop : ℚ) :
    linspace_calc T start stop 1 true = [FloatValue.nan] := by
  have hzero : (((1 + SIZE_MOD - 1) % SIZE_MOD : Nat) : ℚ) = 0 := by
    have : (1 + SIZE_MOD - 1) % SIZE_MOD = 0 := by decide
    rw [this]; rfl
  have hr : List.range 1 = [0] := rfl
  unfold linspace_calc
  simp only [if_true, hzero, hr, List.map_cons, List.map_nil, Nat.cast_zero]
  by_cases hd : differenceIn T start stop = 0
  · simp only [FloatValue.div, hd, if_true, FloatValue.mul, FloatValue.add]
  · simp only [FloatValue.div, hd, if_true, if_false, FloatValue.mul, FloatValue.add]

/-- C20, the range of a single value.  For every kind and every `start` and
`end`, `linspace_n(start, end, 1)` with the end point divides by `n - 1 = 0`
and computes the one value `start + 0 * step`, which is no number, so that
`linspace_n<float>(start, end, 1)` does not return `[start]`; without the end
point it does.  The same happens in `linspace_step<float>(0, 1, 2)`, which
derives the count 1. -/
theorem single_value_range (T : Kind) (start stop : ℚ) :
    (1 + SIZE_MOD - 1) % SIZE_MOD = 0 ∧
      linspace_calc T start stop 1 true = [FloatValue.nan] ∧
      linspace_n .float start stop 1 true = .error .not_a_number ∧
      linspace_n .float start stop 1 false = .ok [.float start] ∧
      linspace_step .float 0 1 2 true = .error .not_a_number := by
  refine ⟨by decide, linspace_calc_one T start stop, ?_, ?_, by decide!⟩
  · unfold linspace_n
    rw [linspace_calc_one]
    rfl
  · have hr : List.range 1 = [0] := rfl
    unfold linspace_n linspace_calc
    simp only [Bool.false_eq_true, if_false, hr, List.map_cons, List.map_nil,
      Nat.cast_zero, Nat.cast_one, FloatValue.div, one_ne_zero, FloatValue.mul, FloatValue.add,
      zero_mul, add_zero, linspace_convert, castTo, List.nil_append]
